import Mathlib

/-!
Shallow embedding of the libweave component manager, command instance and
auth manager, for checking the specification claims against the code.
-/

namespace Weave

/-- JSON values as used by base::Value.  Dictionaries (base::DictionaryValue)
are backed by std::map, so they iterate in lexicographic key order; we keep
them as association lists and all construction goes through sorted insertion. -/
inductive JValue where
  | str : String → JValue
  | int : Int → JValue
  | bool : Bool → JValue
  | list : List JValue → JValue
  | dict : List (String × JValue) → JValue
  deriving Repr

-- Structural equality on JSON values (base::Value::Equals).
mutual

def JValue.beq : JValue → JValue → Bool
  | .str a, .str b => a == b
  | .int a, .int b => a == b
  | .bool a, .bool b => a == b
  | .list a, .list b => JValue.beqList a b
  | .dict a, .dict b => JValue.beqDict a b
  | _, _ => false

def JValue.beqList : List JValue → List JValue → Bool
  | [], [] => true
  | a :: as, b :: bs => JValue.beq a b && JValue.beqList as bs
  | _, _ => false

def JValue.beqDict : List (String × JValue) → List (String × JValue) → Bool
  | [], [] => true
  | (k, v) :: as, (l, w) :: bs =>
      k == l && JValue.beq v w && JValue.beqDict as bs
  | _, _ => false

end

mutual

theorem JValue.beq_iff : ∀ a b : JValue, (JValue.beq a b = true) ↔ a = b
  | .str a, .str b => by simp [JValue.beq]
  | .int a, .int b => by simp [JValue.beq]
  | .bool a, .bool b => by simp [JValue.beq]
  | .list a, .list b => by
      simp [JValue.beq, JValue.beqList_iff a b]
  | .dict a, .dict b => by
      simp [JValue.beq, JValue.beqDict_iff a b]
  | .str _, .int _ | .str _, .bool _ | .str _, .list _ | .str _, .dict _
  | .int _, .str _ | .int _, .bool _ | .int _, .list _ | .int _, .dict _
  | .bool _, .str _ | .bool _, .int _ | .bool _, .list _ | .bool _, .dict _
  | .list _, .str _ | .list _, .int _ | .list _, .bool _ | .list _, .dict _
  | .dict _, .str _ | .dict _, .int _ | .dict _, .bool _ | .dict _, .list _ =>
      by simp [JValue.beq]

theorem JValue.beqList_iff :
    ∀ a b : List JValue, (JValue.beqList a b = true) ↔ a = b
  | [], [] => by simp [JValue.beqList]
  | a :: as, b :: bs => by
      simp [JValue.beqList, JValue.beq_iff a b, JValue.beqList_iff as bs]
  | [], _ :: _ => by simp [JValue.beqList]
  | _ :: _, [] => by simp [JValue.beqList]

theorem JValue.beqDict_iff :
    ∀ a b : List (String × JValue), (JValue.beqDict a b = true) ↔ a = b
  | [], [] => by simp [JValue.beqDict]
  | (k, v) :: as, (l, w) :: bs => by
      simp [JValue.beqDict, JValue.beq_iff v w, JValue.beqDict_iff as bs,
        and_assoc]
  | [], _ :: _ => by simp [JValue.beqDict]
  | _ :: _, [] => by simp [JValue.beqDict]

end

instance : DecidableEq JValue := fun a b =>
  decidable_of_iff _ (JValue.beq_iff a b)

example : (JValue.dict [("a", .int 1)]) ≠ (JValue.dict [("a", .int 2)]) := by decide

/-- Dictionary entry lists. `base::DictionaryValue` is backed by
`std::map<std::string, base::Value*>`, so the entry list is kept in strictly
increasing key order and iteration follows that order. -/
abbrev JDict := List (String × JValue)

/-- Key lookup in an association list
(`base::DictionaryValue::GetWithoutPathExpansion`). -/
def alGet {α : Type} : List (String × α) → String → Option α
  | [], _ => none
  | (l, w) :: rest, k => if k = l then some w else alGet rest k

/-- Lexicographic comparison of character lists by code point, the order of
`std::less<std::string>` on UTF-8 data. -/
def strLtChars : List Char → List Char → Bool
  | [], [] => false
  | [], _ :: _ => true
  | _ :: _, [] => false
  | a :: as, b :: bs =>
      if a.toNat < b.toNat then true
      else if b.toNat < a.toNat then false
      else strLtChars as bs

/-- `std::string` `operator<` (the `std::map` key order). -/
def strLt (a b : String) : Bool := strLtChars a.data b.data

/-- Total-order companion: `a ≤ b` iff `¬ b < a`. -/
def strLe (a b : String) : Bool := !(strLt b a)

theorem strLtChars_irrefl : ∀ l : List Char, strLtChars l l = false
  | [] => rfl
  | a :: as => by
      simp [strLtChars, strLtChars_irrefl as]

theorem strLtChars_asymm : ∀ a b : List Char,
    strLtChars a b = true → strLtChars b a = false
  | [], [] => by simp [strLtChars]
  | [], _ :: _ => by simp [strLtChars]
  | _ :: _, [] => by simp [strLtChars]
  | a :: as, b :: bs => by
      simp only [strLtChars]
      by_cases h1 : a.toNat < b.toNat
      · intro _
        rw [if_neg (by omega), if_pos h1]
      · rw [if_neg h1]
        by_cases h2 : b.toNat < a.toNat
        · simp [h2]
        · rw [if_neg h2, if_neg h1, if_neg h2]
          exact strLtChars_asymm as bs

theorem strLtChars_trans : ∀ a b c : List Char,
    strLtChars a b = true → strLtChars b c = true → strLtChars a c = true
  | [], [], c => by simp [strLtChars]
  | [], _ :: _, [] => by simp [strLtChars]
  | [], _ :: _, _ :: _ => by simp [strLtChars]
  | _ :: _, [], _ => by simp [strLtChars]
  | a :: as, b :: bs, [] => by simp [strLtChars]
  | a :: as, b :: bs, c :: cs => by
      simp only [strLtChars]
      by_cases h1 : a.toNat < b.toNat <;> by_cases h2 : b.toNat < c.toNat
      · intro _ _
        rw [if_pos (by omega)]
      · rw [if_neg h2]
        by_cases h3 : c.toNat < b.toNat
        · simp [h3]
        · rw [if_neg h3]
          intro _ hbc
          rw [if_pos (by omega)]
      · rw [if_neg h1]
        by_cases h3 : b.toNat < a.toNat
        · simp [h3]
        · rw [if_neg h3]
          intro hab _
          rw [if_pos (by omega)]
      · rw [if_neg h1, if_neg h2]
        by_cases h3 : b.toNat < a.toNat
        · simp [h3]
        · rw [if_neg h3]
          by_cases h4 : c.toNat < b.toNat
          · simp [h4]
          · rw [if_neg h4]
            intro hab hbc
            rw [if_neg (by omega), if_neg (by omega)]
            exact strLtChars_trans as bs cs hab hbc

theorem strLt_irrefl (a : String) : strLt a a = false :=
  strLtChars_irrefl a.data

theorem strLt_asymm (a b : String) : strLt a b = true → strLt b a = false :=
  strLtChars_asymm a.data b.data

theorem strLt_trans (a b c : String) :
    strLt a b = true → strLt b c = true → strLt a c = true :=
  strLtChars_trans a.data b.data c.data

theorem strLt_ne (a b : String) (h : strLt a b = true) : a ≠ b := by
  intro he
  rw [he, strLt_irrefl] at h
  exact absurd h (by simp)

/-- Key insertion/assignment keeping the `std::map` lexicographic order
(`base::DictionaryValue::SetWithoutPathExpansion`). -/
def alSet {α : Type} : List (String × α) → String → α → List (String × α)
  | [], k, v => [(k, v)]
  | (l, w) :: rest, k, v =>
      if strLt k l then (k, v) :: (l, w) :: rest
      else if k = l then (k, v) :: rest
      else (l, w) :: alSet rest k v

/-- The entry list is sorted strictly by key, as in `std::map`. -/
def alSorted {α : Type} : List (String × α) → Prop
  | [] => True
  | [_] => True
  | (k, _) :: (l, w) :: rest => strLt k l = true ∧ alSorted ((l, w) :: rest)

theorem alGet_alSet_self {α : Type} (d : List (String × α)) (k : String) (v : α) :
    alGet (alSet d k v) k = some v := by
  induction d with
  | nil => simp [alGet, alSet]
  | cons hd tl ih =>
      obtain ⟨l, w⟩ := hd
      by_cases h1 : strLt k l = true
      · simp [alSet, h1, alGet]
      · by_cases h2 : k = l
        · simp [alSet, h1, h2, alGet, strLt_irrefl]
        · simp [alSet, h1, h2, alGet, ih]

theorem alGet_alSet_ne {α : Type} (d : List (String × α)) (k k' : String) (v : α)
    (h : k' ≠ k) : alGet (alSet d k v) k' = alGet d k' := by
  induction d with
  | nil => simp [alGet, alSet, h]
  | cons hd tl ih =>
      obtain ⟨l, w⟩ := hd
      by_cases h1 : strLt k l = true
      · simp only [alSet, if_pos h1, alGet, if_neg h]
      · by_cases h2 : k = l
        · subst h2
          simp [alSet, h1, alGet, h]
        · simp only [alSet, h1, if_false, if_neg h2, alGet, Bool.false_eq_true]
          by_cases h3 : k' = l
          · simp [h3]
          · simp [h3, ih]

/-- `base::kWhitespaceASCII` membership. -/
def isSpaceASCII (c : Char) : Bool :=
  c = ' ' ∨ c = '\t' ∨ c = '\n' ∨ c = '\x0b' ∨ c = '\x0c' ∨ c = '\r'

/-- `base::TrimWhitespaceASCII` on the character list of a string. -/
def trimChars (l : List Char) : List Char :=
  ((l.dropWhile isSpaceASCII).reverse.dropWhile isSpaceASCII).reverse

/-- Split a character list on a separator character, keeping empty pieces. -/
def splitOnChar (sep : Char) : List Char → List (List Char)
  | [] => [[]]
  | x :: xs =>
      let r := splitOnChar sep xs
      if x = sep then [] :: r
      else
        match r with
        | h :: t => (x :: h) :: t
        | [] => [[x]]

/-- Split at the first occurrence of a character: characters before it, and
the characters after it when it occurs. -/
def breakAtFirst (sep : Char) : List Char → List Char × Option (List Char)
  | [] => ([], none)
  | x :: xs =>
      if x = sep then ([], some xs)
      else
        let p := breakAtFirst sep xs
        (x :: p.1, p.2)

/-- `base::SplitString(s, ".", TRIM_WHITESPACE, SPLIT_WANT_ALL)` as used by
`Split(path, ".", true, false)`: empty input yields no pieces, otherwise each
dot-separated piece is trimmed and kept (empties included). -/
def splitTrim (s : String) : List String :=
  if s = "" then []
  else (splitOnChar '.' s.data).map (fun cs => (⟨trimChars cs⟩ : String))

/-- `SplitAtFirst(s, sep, true)`: split at the first occurrence of the
separator, trimming both pieces; the second piece is empty when the separator
does not occur. -/
def splitAtFirst (s : String) (sep : Char) : String × String :=
  match breakAtFirst sep s.data with
  | (a, none) => ((⟨trimChars a⟩ : String), "")
  | (a, some b) => ((⟨trimChars a⟩ : String), (⟨trimChars b⟩ : String))

/-- Decimal digit run to a number. -/
def parseNatChars (l : List Char) : Option Nat :=
  if l = [] then none
  else if l.all (fun c => '0' ≤ c ∧ c ≤ '9') then
    some (l.foldl (fun a c => 10 * a + (c.toNat - 48)) 0)
  else none

/-- `base::StringToInt` on a character list: optional minus sign followed by
decimal digits, nothing else. -/
def parseIntChars : List Char → Option Int
  | '-' :: rest => (parseNatChars rest).map (fun n => -(n : Int))
  | l => (parseNatChars l).map (fun n => (n : Int))

/-- `base::StringToInt`: parse a whole string as a decimal integer. -/
def stringToInt (s : String) : Option Int := parseIntChars s.data

/-- User roles, ordered `viewer < user < manager < owner` (enum order of
`UserRole` in the C++ sources). -/
inductive UserRole where
  | viewer | user | manager | owner
  deriving DecidableEq, Repr

def UserRole.toNat : UserRole → Nat
  | .viewer => 0
  | .user => 1
  | .manager => 2
  | .owner => 3

instance : LT UserRole := ⟨fun a b => a.toNat < b.toNat⟩
instance : LE UserRole := ⟨fun a b => a.toNat ≤ b.toNat⟩
instance (a b : UserRole) : Decidable (a < b) :=
  inferInstanceAs (Decidable (a.toNat < b.toNat))
instance (a b : UserRole) : Decidable (a ≤ b) :=
  inferInstanceAs (Decidable (a.toNat ≤ b.toNat))

/-- `StringToEnum<UserRole>` over the map `kMap` in component_manager_impl.cc.
An unmapped string fails the conversion (the callers `CHECK` it, aborting the
process; the abort is modelled as `none`). -/
def stringToRole (s : String) : Option UserRole :=
  if s = "viewer" then some .viewer
  else if s = "user" then some .user
  else if s = "owner" then some .owner
  else if s = "manager" then some .manager
  else none

/-- Error codes used by the embedded operations (§7 of the spec; the C++
returns an error chain, the embedding keeps the innermost code). -/
inductive ErrCode where
  | invalidState | invalidPropValue | typeMismatch | propertyMissing
  | invalidCommandName | accessDenied | unroutedCommand | traitNotSupported
  | commandFailed | objectExpected | commandDestroyed
  deriving DecidableEq, Repr

instance {e a : Type} [DecidableEq e] [DecidableEq a] :
    DecidableEq (Except e a) := fun x y =>
  match x, y with
  | .error u, .error v =>
      if h : u = v then .isTrue (by rw [h]) else .isFalse (by simp [h])
  | .ok u, .ok v =>
      if h : u = v then .isTrue (by rw [h]) else .isFalse (by simp [h])
  | .error _, .ok _ => .isFalse (by simp)
  | .ok _, .error _ => .isFalse (by simp)

/-- `base::DictionaryValue::Get`/`GetDictionary` with path expansion: the key
is split on dots and each intermediate step must be a dictionary. -/
def dictPathGetParts (d : JDict) : List String → Option JValue
  | [] => none
  | [k] => alGet d k
  | k :: rest =>
      match alGet d k with
      | some (.dict sub) => dictPathGetParts sub rest
      | _ => none

def dictPathGet (d : JDict) (key : String) : Option JValue :=
  dictPathGetParts d ((splitOnChar '.' key.data).map (fun cs => (⟨cs⟩ : String)))

/-- Path-expanded lookup returning only dictionary values
(`base::DictionaryValue::GetDictionary`). -/
def dictPathGetDict (d : JDict) (key : String) : Option JDict :=
  match dictPathGet d key with
  | some (.dict sub) => some sub
  | _ => none

/-- `base::DictionaryValue::Set` with path expansion: intermediate
dictionaries are created (or non-dictionary values replaced) along the way. -/
def dictPathSetParts (d : JDict) : List String → JValue → JDict
  | [], _ => d
  | [k], v => alSet d k v
  | k :: rest, v =>
      let sub := match alGet d k with
        | some (.dict s) => s
        | _ => []
      alSet d k (.dict (dictPathSetParts sub rest v))

def dictPathSet (d : JDict) (key : String) (v : JValue) : JDict :=
  dictPathSetParts d ((splitOnChar '.' key.data).map (fun cs => (⟨cs⟩ : String))) v

-- base::DictionaryValue::MergeDictionary: entries of the source are copied
-- into the destination in iteration order; when both sides hold a dictionary
-- under the same key the dictionaries are merged recursively, otherwise the
-- source value replaces the destination value.
mutual

def mergeDict (dst : JDict) : JDict → JDict
  | [] => dst
  | (k, v) :: rest => mergeDict (mergeStep dst k v) rest

def mergeStep (dst : JDict) (k : String) (v : JValue) : JDict :=
  match v, alGet dst k with
  | .dict sv, some (.dict dv) => alSet dst k (.dict (mergeDict dv sv))
  | _, _ => alSet dst k v

end

/-- One parsed element of a dotted component path: a name and an optional
array index (`name[i]`). -/
def parsePathElem (part : String) : Except ErrCode (String × Option Nat) :=
  let p := splitAtFirst part '['
  if p.1 = "" then .error .propertyMissing
  else if p.2 = "" then .ok (p.1, none)
  else if p.2.data.getLast? ≠ some ']' then .error .propertyMissing
  else
    let idxChars := trimChars p.2.data.dropLast
    match parseIntChars idxChars with
    | some i => if i < 0 then .error .invalidPropValue else .ok (p.1, some i.toNat)
    | none => .error .invalidPropValue

/-- Resolve one path element inside `base`, the dictionary holding child
components at the current level (`ComponentManagerImpl::FindComponentAt` loop
body).  Children that are neither dictionaries nor lists fail a `CHECK` in the
C++ (process abort), modelled as `propertyMissing`. -/
def resolveChild (base : JDict) (name : String) (idx : Option Nat) :
    Except ErrCode JDict :=
  match alGet base name with
  | none => .error .propertyMissing
  | some v =>
      match v, idx with
      | .list _, none => .error .typeMismatch
      | .dict _, some _ => .error .typeMismatch
      | .dict entries, none => .ok entries
      | .list items, some i =>
          match items.get? i with
          | some (.dict entries) => .ok entries
          | _ => .error .propertyMissing
      | _, _ => .error .propertyMissing

/-- `ComponentManagerImpl::FindComponentAt`: walk the parsed path elements.
`first` is true while no element has been consumed (the root is the top-level
components dictionary itself); afterwards the walk descends through each
component's `components` child dictionary. -/
def findComponentAtParts (root : JDict) (first : Bool) :
    List String → Except ErrCode JDict
  | [] => .ok root
  | part :: rest => do
      let (name, idx) ← parsePathElem part
      let base ←
        if first then pure root
        else
          match alGet root "components" with
          | some (.dict sub) => pure sub
          | _ => .error .propertyMissing
      let comp ← resolveChild base name idx
      findComponentAtParts comp false rest

def findComponentAt (root : JDict) (path : String) : Except ErrCode JDict :=
  findComponentAtParts root true (splitTrim path)

/-- Write a modified component back into the tree at the position found by
`findComponentAtParts` (in the C++ the mutation happens in place through the
pointer returned by `FindMutableComponent`).  Total: when the path does not
resolve the tree is returned unchanged (the callers only invoke it after a
successful find). -/
def writeBackAtParts (root : JDict) (first : Bool) :
    List String → JDict → JDict
  | [], c' => c'
  | part :: rest, c' =>
      match parsePathElem part with
      | .error _ => root
      | .ok (name, idx) =>
          let base? : Option JDict :=
            if first then some root
            else
              match alGet root "components" with
              | some (.dict sub) => some sub
              | _ => none
          match base? with
          | none => root
          | some base =>
              match resolveChild base name idx with
              | .error _ => root
              | .ok comp =>
                  let comp' := writeBackAtParts comp false rest c'
                  let base' :=
                    match idx with
                    | none => alSet base name (.dict comp')
                    | some i =>
                        match alGet base name with
                        | some (.list items) =>
                            alSet base name (.list (items.set i (.dict comp')))
                        | _ => base
                  if first then base' else alSet root "components" (.dict base')

/-- A recorded state change of one component's queue
(`weave::StateChange`); time is in abstract clock ticks. -/
structure StateChange where
  timestamp : Nat
  changedProperties : JDict
  deriving DecidableEq, Repr

/-- `weave::ComponentManager::ComponentStateChange`. -/
structure ComponentStateChange where
  timestamp : Nat
  component : String
  changedProperties : JDict
  deriving DecidableEq, Repr

/-- State of `ComponentManagerImpl`.  Callback lists are modelled by counters
of how many times the corresponding callback set was fired; the pluggable
clock is the `now` field. -/
structure CM where
  traits : JDict
  components : JDict
  lastStateChangeId : Nat
  nextCommandId : Nat
  stateChangeQueues : List (String × List StateChange)
  treeChangedCount : Nat
  traitChangedCount : Nat
  stateChangedCount : Nat
  now : Nat
  deriving DecidableEq, Repr

/-- The empty component manager. -/
def CM.init : CM :=
  { traits := [], components := [], lastStateChangeId := 0, nextCommandId := 0,
    stateChangeQueues := [], treeChangedCount := 0, traitChangedCount := 0,
    stateChangedCount := 0, now := 0 }

/-- `ComponentManagerImpl::FindTraitDefinition`: exact-key lookup in the
trait registry, dictionaries only. -/
def findTraitDefinition (tr : JDict) (name : String) : Option JDict :=
  match alGet tr name with
  | some (.dict d) => some d
  | _ => none

/-- `ComponentManagerImpl::FindCommandDefinition`: `trait.command` names only;
the definition is looked up at path `trait.commands.command` in the registry. -/
def findCommandDefinition (tr : JDict) (commandName : String) : Option JDict :=
  match splitTrim commandName with
  | [t, c] =>
      match dictPathGet tr (t ++ ".commands." ++ c) with
      | some (.dict d) => some d
      | _ => none
  | _ => none

/-- `ComponentManagerImpl::FindStateDefinition`: `trait.property` names only;
the definition is looked up at path `trait.state.property`. -/
def findStateDefinition (tr : JDict) (propName : String) : Option JDict :=
  match splitTrim propName with
  | [t, p] =>
      match dictPathGet tr (t ++ ".state." ++ p) with
      | some (.dict d) => some d
      | _ => none
  | _ => none

/-- `ComponentManagerImpl::GetCommandMinimalRole`.  The C++ `CHECK`s that a
found definition carries a valid `minimalRole` string (aborting the process
otherwise); the abort is modelled as an error. -/
def getCommandMinimalRole (tr : JDict) (commandName : String) :
    Except ErrCode UserRole :=
  match findCommandDefinition tr commandName with
  | none => .error .invalidCommandName
  | some cmdDef =>
      match alGet cmdDef "minimalRole" with
      | some (.str s) =>
          match stringToRole s with
          | some r => .ok r
          | none => .error .invalidCommandName
      | _ => .error .invalidCommandName

/-- `ComponentManagerImpl::GetStateMinimalRole` as used with a null error
output: `none` when no state definition exists; defaults to `user` when the
definition has no `minimalRole` string. -/
def getStateMinimalRole (tr : JDict) (propName : String) : Option UserRole :=
  match findStateDefinition tr propName with
  | none => none
  | some sdef =>
      match alGet sdef "minimalRole" with
      | some (.str s) => stringToRole s
      | _ => some .user

/-- Loop body of `ComponentManagerImpl::LoadTraits`: iterate the input
dictionary in order; a non-object value or a redefinition with a different
body stops the loop with `result = false`, keeping everything merged so far.
Returns (new registry, modified flag, result). -/
def loadTraitsLoop (tr : JDict) (modified : Bool) :
    List (String × JValue) → JDict × Bool × Bool
  | [] => (tr, modified, true)
  | (k, v) :: rest =>
      match v with
      | .dict _ =>
          match dictPathGetDict tr k with
          | some existing =>
              if JValue.dict existing = v then loadTraitsLoop tr modified rest
              else (tr, modified, false)
          | none => loadTraitsLoop (dictPathSet tr k v) true rest
      | _ => (tr, modified, false)

/-- `ComponentManagerImpl::LoadTraits`: merge new traits, reject conflicting
redefinitions; fires the trait-changed callbacks whenever anything was merged,
even when the call as a whole fails. -/
def loadTraits (M : CM) (dict : JDict) : CM × Bool :=
  let (tr', modified, result) := loadTraitsLoop M.traits false dict
  ({ M with
      traits := tr',
      traitChangedCount := M.traitChangedCount + (if modified then 1 else 0) },
    result)

/-- `ComponentManagerImpl::FindComponentWithTrait`: scan the top-level
components in dictionary iteration order; return the first whose `traits`
list contains the trait, the empty string when none does. -/
def findComponentWithTrait (components : JDict) (trait : String) : String :=
  match components with
  | [] => ""
  | (name, v) :: rest =>
      let declares :=
        match v with
        | .dict comp =>
            match alGet comp "traits" with
            | some (.list supported) => supported.contains (JValue.str trait)
            | _ => false
        | _ => false
      if declares then name else findComponentWithTrait rest trait

/-- `base::DictionaryValue::RemoveWithoutPathExpansion` (no duplicate keys in
a `std::map`; on a degenerate list every binding of the key is dropped). -/
def alRemove {α : Type} (d : List (String × α)) (k : String) :
    List (String × α) :=
  d.filter (fun p => p.1 ≠ k)

theorem sizeOf_alGet {α : Type} [SizeOf α] :
    ∀ (d : List (String × α)) (k : String) (w : α),
      alGet d k = some w → sizeOf w < sizeOf d := by
  intro d k
  induction d with
  | nil => intro w h; simp [alGet] at h
  | cons hd tl ih =>
      obtain ⟨l, v⟩ := hd
      intro w h
      simp only [alGet] at h
      by_cases hk : k = l
      · rw [if_pos hk] at h
        cases h
        simp only [List.cons.sizeOf_spec, Prod.mk.sizeOf_spec]
        omega
      · rw [if_neg hk] at h
        have := ih w h
        simp only [List.cons.sizeOf_spec, Prod.mk.sizeOf_spec]
        omega

theorem alGet_alRemove_self {α : Type} (d : List (String × α)) (k : String) :
    alGet (alRemove d k) k = none := by
  induction d with
  | nil => simp [alRemove, alGet]
  | cons hd tl ih =>
      obtain ⟨l, w⟩ := hd
      by_cases hk : l = k
      · simpa [alRemove, alGet, hk] using (by simpa [alRemove] using ih)
      · simp [alRemove, alGet, hk, Ne.symm hk] at ih ⊢
        simpa [alRemove] using ih

theorem alGet_alRemove_ne {α : Type} (d : List (String × α)) (k k' : String)
    (h : k' ≠ k) : alGet (alRemove d k) k' = alGet d k' := by
  induction d with
  | nil => simp [alRemove, alGet]
  | cons hd tl ih =>
      obtain ⟨l, w⟩ := hd
      by_cases hk : l = k
      · subst hk
        simp [alRemove, alGet, h]
        simpa [alRemove] using ih
      · by_cases hk' : k' = l
        · simp [alRemove, alGet, hk, hk']
        · simp [alRemove, alGet, hk, hk'] at ih ⊢
          simpa [alRemove] using ih

/-- Keep a state property iff the trait registry does not declare a minimal
role above the user's role (`RemoveInaccessibleState` collects the others
into `state_props_to_remove`; a property with no registered state definition
is never removed). -/
def keepProp (tr : JDict) (role : UserRole) (traitName propName : String) :
    Bool :=
  match getStateMinimalRole tr (traitName ++ "." ++ propName) with
  | some r => decide (r ≤ role)
  | none => true

/-- State filtering part of `RemoveInaccessibleState`: drop every state
property whose registered minimal role exceeds `role`; `RemovePath` prunes a
trait dictionary emptied by the removals, and the `state` dictionary itself
when it empties too.  A trait value that is not a dictionary fails a `CHECK`
in the C++ (process abort), modelled as kept unchanged. -/
def filterComponentState (tr : JDict) (role : UserRole) (c : JDict) : JDict :=
  match alGet c "state" with
  | some (.dict s) =>
      let s' := s.filterMap (fun tp =>
        match tp.2 with
        | .dict tv =>
            let tv' := tv.filter (fun p => keepProp tr role tp.1 p.1)
            if tv' = [] ∧ tv ≠ [] then none else some (tp.1, JValue.dict tv')
        | other => some (tp.1, other))
      if s' = [] ∧ s ≠ [] then alRemove c "state"
      else alSet c "state" (.dict s')
  | _ => c

-- RemoveInaccessibleState (component_manager_impl.cc, anonymous namespace):
-- filter the component's own state, then recurse into its sub-components
-- (arrays element-wise).  A sub-component entry that is neither a dictionary
-- nor a list is left untouched; a list element that is not a dictionary
-- fails a CHECK in the C++ (modelled as left unchanged).
mutual

def removeInaccessibleState (tr : JDict) (role : UserRole) (c : JDict) :
    JDict :=
  let c1 := filterComponentState tr role c
  match h : alGet c "components" with
  | some (.dict subs) => alSet c1 "components" (.dict (riaSubs tr role subs))
  | _ => c1
termination_by sizeOf c
decreasing_by
  have h1 := sizeOf_alGet c "components" _ h
  simp only [JValue.dict.sizeOf_spec] at h1
  omega

def riaSubs (tr : JDict) (role : UserRole) : JDict → JDict
  | [] => []
  | (n, v) :: rest => (n, riaSub tr role v) :: riaSubs tr role rest
termination_by d => sizeOf d
decreasing_by
  · simp only [List.cons.sizeOf_spec, Prod.mk.sizeOf_spec]; omega
  · simp only [List.cons.sizeOf_spec, Prod.mk.sizeOf_spec]; omega

def riaSub (tr : JDict) (role : UserRole) : JValue → JValue
  | .dict e => .dict (removeInaccessibleState tr role e)
  | .list items => .list (riaItems tr role items)
  | other => other
termination_by v => sizeOf v
decreasing_by
  · simp only [JValue.dict.sizeOf_spec]; omega
  · simp only [JValue.list.sizeOf_spec]; omega

def riaItems (tr : JDict) (role : UserRole) : List JValue → List JValue
  | [] => []
  | item :: rest => riaSub tr role item :: riaItems tr role rest
termination_by l => sizeOf l
decreasing_by
  · simp only [List.cons.sizeOf_spec]; omega
  · simp only [List.cons.sizeOf_spec]; omega

end

/-- `ComponentManagerImpl::GetComponentsForUserRole`: deep copy of the
component tree with every component filtered (a non-dictionary top-level
entry fails a `CHECK` in the C++, modelled as left unchanged). -/
def getComponentsForUserRole (M : CM) (role : UserRole) : JDict :=
  M.components.map (fun nc =>
    match nc.2 with
    | .dict comp => (nc.1, JValue.dict (removeInaccessibleState M.traits role comp))
    | other => (nc.1, other))

/-- Checker for claim C3: every state property of a component whose state
definition is registered has minimal role at most `role`. -/
def statePropsOk (tr : JDict) (role : UserRole) (v? : Option JValue) : Bool :=
  match v? with
  | some (.dict s) =>
      s.all (fun tp =>
        match tp.2 with
        | .dict tv => tv.all (fun p => keepProp tr role tp.1 p.1)
        | _ => true)
  | _ => true

-- Recursive checker over a component tree, mirroring the recursion of
-- RemoveInaccessibleState.
mutual

def compOk (tr : JDict) (role : UserRole) (c : JDict) : Bool :=
  statePropsOk tr role (alGet c "state") &&
    (match h : alGet c "components" with
     | some (.dict subs) => subsOk tr role subs
     | _ => true)
termination_by sizeOf c
decreasing_by
  have h1 := sizeOf_alGet c "components" _ h
  simp only [JValue.dict.sizeOf_spec] at h1
  omega

def subsOk (tr : JDict) (role : UserRole) : JDict → Bool
  | [] => true
  | (_, v) :: rest => valOk tr role v && subsOk tr role rest
termination_by d => sizeOf d
decreasing_by
  · simp only [List.cons.sizeOf_spec, Prod.mk.sizeOf_spec]; omega
  · simp only [List.cons.sizeOf_spec, Prod.mk.sizeOf_spec]; omega

def valOk (tr : JDict) (role : UserRole) : JValue → Bool
  | .dict e => compOk tr role e
  | .list items => itemsOk tr role items
  | _ => true
termination_by v => sizeOf v
decreasing_by
  · simp only [JValue.dict.sizeOf_spec]; omega
  · simp only [JValue.list.sizeOf_spec]; omega

def itemsOk (tr : JDict) (role : UserRole) : List JValue → Bool
  | [] => true
  | item :: rest => valOk tr role item && itemsOk tr role rest
termination_by l => sizeOf l
decreasing_by
  · simp only [List.cons.sizeOf_spec]; omega
  · simp only [List.cons.sizeOf_spec]; omega

end

/-- Top-level checker matching `getComponentsForUserRole`'s result shape. -/
def componentsOk (tr : JDict) (role : UserRole) (d : JDict) : Bool :=
  d.all (fun nc =>
    match nc.2 with
    | .dict comp => compOk tr role comp
    | _ => true)

/-- `Command::State` (command_instance.cc `kMapStatus`). -/
inductive CmdState where
  | queued | inProgress | paused | error | done | cancelled | aborted | expired
  deriving DecidableEq, Repr

/-- `Command::Origin`. -/
inductive Origin where
  | local | cloud
  deriving DecidableEq, Repr

/-- `weave::CommandInstance` data.  The stored error object is modelled by a
presence flag. -/
structure CommandInstance where
  id : String
  name : String
  component : String
  origin : Origin
  state : CmdState
  parameters : JDict
  progress : JDict
  results : JDict
  hasError : Bool
  deriving DecidableEq, Repr

/-- `CommandInstance::SetStatus`: re-asserting the current state is a
successful no-op; switching to `queued` or out of a terminal state is an
`invalid_state` error. -/
def setStatus (state status : CmdState) : Except ErrCode CmdState :=
  if status = state then .ok state
  else if status = .queued then .error .invalidState
  else
    match state with
    | .done | .cancelled | .aborted | .expired => .error .invalidState
    | _ => .ok status

/-- `CommandInstance::SetProgress`: status first (even when the progress is
unchanged), then the progress dictionary is replaced if it differs. -/
def CommandInstance.SetProgress (c : CommandInstance) (p : JDict) :
    CommandInstance × Bool :=
  match setStatus c.state .inProgress with
  | .error _ => (c, false)
  | .ok s =>
      let c' := { c with state := s }
      if c'.progress = mergeDict [] p then (c', true)
      else ({ c' with progress := mergeDict [] p }, true)

/-- `CommandInstance::Complete`: results are written (and observers notified)
before the status change is attempted. -/
def CommandInstance.Complete (c : CommandInstance) (results : JDict) :
    CommandInstance × Bool :=
  let c1 :=
    if c.results = mergeDict [] results then c
    else { c with results := mergeDict [] results }
  match setStatus c1.state .done with
  | .error _ => (c1, false)
  | .ok s => ({ c1 with state := s }, true)

/-- `CommandInstance::SetError`: the error object is stored before the status
change is attempted. -/
def CommandInstance.SetError (c : CommandInstance) (hasErr : Bool) :
    CommandInstance × Bool :=
  let c1 := { c with hasError := hasErr }
  match setStatus c1.state .error with
  | .error _ => (c1, false)
  | .ok s => ({ c1 with state := s }, true)

/-- `CommandInstance::Pause`. -/
def CommandInstance.Pause (c : CommandInstance) : CommandInstance × Bool :=
  match setStatus c.state .paused with
  | .error _ => (c, false)
  | .ok s => ({ c with state := s }, true)

/-- `CommandInstance::Abort`: stores the error, then attempts the status
change. -/
def CommandInstance.Abort (c : CommandInstance) (hasErr : Bool) :
    CommandInstance × Bool :=
  let c1 := { c with hasError := hasErr }
  match setStatus c1.state .aborted with
  | .error _ => (c1, false)
  | .ok s => ({ c1 with state := s }, true)

/-- `CommandInstance::Cancel`. -/
def CommandInstance.Cancel (c : CommandInstance) : CommandInstance × Bool :=
  match setStatus c.state .cancelled with
  | .error _ => (c, false)
  | .ok s => ({ c with state := s }, true)

/-- `CommandInstance::FromJson` as invoked by
`ComponentManagerImpl::ParseCommandInstance` (value, origin, out id, error).
Modelled from the spec: that overload is absent from the sources, which carry
an older overload validating against a `CommandDictionary`; the id, name,
component and parameters extraction below follows the overload in
src/src/commands/command_instance.cc lines 183-239, with the command-name
validation performed by the caller through `getCommandMinimalRole`.  Returns
the out id parameter together with the instance or error. -/
def fromJson (v : JValue) (origin : Origin) :
    String × Except ErrCode CommandInstance :=
  match v with
  | .dict json =>
      let cid :=
        match alGet json "id" with
        | some (.str s) => s
        | _ => ""
      match alGet json "name" with
      | some (.str name) =>
          let componentPath :=
            match alGet json "component" with
            | some (.str s) => s
            | _ => ""
          match alGet json "parameters" with
          | some (.dict p) =>
              (cid, .ok { id := cid, name := name, component := componentPath,
                          origin := origin, state := .queued,
                          parameters := mergeDict [] p, progress := [],
                          results := [], hasError := false })
          | some _ => (cid, .error .objectExpected)
          | none =>
              (cid, .ok { id := cid, name := name, component := componentPath,
                          origin := origin, state := .queued, parameters := [],
                          progress := [], results := [], hasError := false })
      | _ => (cid, .error .propertyMissing)
  | _ => ("", .error .objectExpected)

/-- Does the component (its `traits` list) declare the given trait?  Used by
the trait-support check in `ParseCommandInstance`. -/
def componentSupportsTrait (comp : JDict) (trait : String) : Bool :=
  match alGet comp "traits" with
  | some (.list supported) => supported.contains (JValue.str trait)
  | _ => false

/-- `ComponentManagerImpl::ParseCommandInstance`.  Returns the possibly
updated manager (the command id counter), the caller's out id parameter, and
the command instance or error. -/
def parseCommandInstance (M : CM) (command : JValue) (origin : Origin)
    (role : UserRole) : CM × String × Except ErrCode CommandInstance :=
  let (cid, r) := fromJson command origin
  match r with
  | .error e => (M, cid, .error e)
  | .ok inst =>
      match getCommandMinimalRole M.traits inst.name with
      | .error e => (M, cid, .error e)
      | .ok minimalRole =>
          if role < minimalRole then (M, cid, .error .accessDenied)
          else
            let routed :
                Except ErrCode String :=
              if inst.component = "" then
                let traitName := (splitAtFirst inst.name '.').1
                let path := findComponentWithTrait M.components traitName
                if path = "" then .error .unroutedCommand else .ok path
              else .ok inst.component
            match routed with
            | .error e => (M, cid, .error e)
            | .ok componentPath =>
                match findComponentAt M.components componentPath with
                | .error e => (M, cid, .error e)
                | .ok comp =>
                    let traitName := (splitAtFirst inst.name '.').1
                    if ¬ componentSupportsTrait comp traitName then
                      (M, cid, .error .traitNotSupported)
                    else if cid = "" then
                      let newId := toString (M.nextCommandId + 1)
                      ({ M with nextCommandId := M.nextCommandId + 1 }, newId,
                        .ok { inst with component := componentPath, id := newId })
                    else
                      (M, cid,
                        .ok { inst with component := componentPath })

/-- Shared graft-node insertion of `ComponentManagerImpl::AddComponent`:
duplicate-sibling check, then trait-registry check, then insertion of the new
component `{traits: [...]}` into the graft dictionary. -/
def addToGraft (traitsReg : JDict) (name : String) (traits : List String)
    (g : JDict) : JDict × Option ErrCode :=
  if (alGet g name).isSome then (g, some .invalidState)
  else if traits.any (fun t => (findTraitDefinition traitsReg t).isNone) then
    (g, some .invalidPropValue)
  else
    (alSet g name (.dict [("traits", .list (traits.map JValue.str))]), none)

/-- `ComponentManagerImpl::FindComponentGraftNode` applied to an already
found component: its `components` child dictionary, created (replacing any
non-dictionary value) when absent. -/
def graftEntries (c : JDict) : JDict :=
  match alGet c "components" with
  | some (.dict g) => g
  | _ => []

/-- `ComponentManagerImpl::AddComponent`.  For a non-empty parent path the
graft node is created inside the parent before the checks run, so a failed
trait check can still leave a fresh empty `components` dictionary behind. -/
def addComponent (M : CM) (path name : String) (traits : List String) :
    CM × Option ErrCode :=
  if path = "" then
    let (g', err) := addToGraft M.traits name traits M.components
    match err with
    | some e => ({ M with components := g' }, some e)
    | none =>
        ({ M with
            components := g',
            treeChangedCount := M.treeChangedCount + 1 }, none)
  else
    match findComponentAt M.components path with
    | .error e => (M, some e)
    | .ok c =>
        let (g', err) := addToGraft M.traits name traits (graftEntries c)
        let c' := alSet c "components" (.dict g')
        let components' := writeBackAtParts M.components true (splitTrim path) c'
        match err with
        | some e => ({ M with components := components' }, some e)
        | none =>
            ({ M with
                components := components',
                treeChangedCount := M.treeChangedCount + 1 }, none)

/-- `ComponentManagerImpl::AddComponentArrayItem`: no duplicate-sibling and no
trait checks; a missing (or non-list) entry under `name` is replaced by a
fresh list, and the new component is appended. -/
def addComponentArrayItem (M : CM) (path name : String)
    (traits : List String) : CM × Option ErrCode :=
  let appendItem : JDict → JDict := fun g =>
    let arr :=
      match alGet g name with
      | some (.list items) => items
      | _ => []
    alSet g name (.list (arr ++ [.dict [("traits", .list (traits.map JValue.str))]]))
  if path = "" then
    ({ M with
        components := appendItem M.components,
        treeChangedCount := M.treeChangedCount + 1 }, none)
  else
    match findComponentAt M.components path with
    | .error e => (M, some e)
    | .ok c =>
        let c' := alSet c "components" (.dict (appendItem (graftEntries c)))
        let components' := writeBackAtParts M.components true (splitTrim path) c'
        ({ M with
            components := components',
            treeChangedCount := M.treeChangedCount + 1 }, none)

/-- Modelled from the spec: `StateChangeQueue::NotifyPropertiesUpdated`
(state_change_queue.cc is absent from the sources).  §3: per-component
bounded queue of (timestamp, changed-properties dict), capped at 100 entries,
oldest dropped when full. -/
def notifyPropertiesUpdated (q : List StateChange) (ts : Nat) (d : JDict) :
    List StateChange :=
  let q' := q ++ [⟨ts, d⟩]
  if q'.length > 100 then q'.drop (q'.length - 100) else q'

/-- `ComponentManagerImpl::SetStateProperties`: find the component, merge the
dictionary into its `state` child (created on demand), bump the update id,
record the change in the per-component queue, fire the state callbacks. -/
def setStateProperties (M : CM) (path : String) (dict : JDict) :
    CM × Option ErrCode :=
  match findComponentAt M.components path with
  | .error e => (M, some e)
  | .ok c =>
      let state :=
        match alGet c "state" with
        | some (.dict s) => s
        | _ => []
      let c' := alSet c "state" (.dict (mergeDict state dict))
      let components' := writeBackAtParts M.components true (splitTrim path) c'
      let queue :=
        match alGet M.stateChangeQueues path with
        | some q => q
        | none => []
      ({ M with
          components := components',
          lastStateChangeId := M.lastStateChangeId + 1,
          stateChangeQueues :=
            alSet M.stateChangeQueues path
              (notifyPropertiesUpdated queue M.now dict),
          stateChangedCount := M.stateChangedCount + 1 }, none)

/-- `ComponentManagerImpl::SetStateProperty`: validate the dotted property
name, build the nested one-property dictionary (path-expanding `Set`), and
delegate to `setStateProperties`. -/
def setStateProperty (M : CM) (path name : String) (v : JValue) :
    CM × Option ErrCode :=
  let pair := splitAtFirst name '.'
  if pair.1 = "" then (M, some .propertyMissing)
  else if pair.2 = "" then (M, some .propertyMissing)
  else setStateProperties M path (dictPathSet [] name v)

/-- `ComponentManagerImpl::GetAndClearRecordedStateChanges`: drain every
per-component queue (each queue's `GetAndClearRecordedStateChanges` is
modelled from the spec as returning all recorded entries), tag the entries
with their component path, sort by timestamp, clear the queue map, and
return the snapshot with the current update id. -/
def getAndClearRecordedStateChanges (M : CM) :
    CM × Nat × List ComponentStateChange :=
  let collected :=
    M.stateChangeQueues.flatMap (fun pq =>
      pq.2.map (fun sc =>
        ComponentStateChange.mk sc.timestamp pq.1 sc.changedProperties))
  let sorted := collected.mergeSort (fun a b => decide (a.timestamp ≤ b.timestamp))
  ({ M with stateChangeQueues := [] }, M.lastStateChangeId, sorted)

/-! ### AuthManager (src/privet/auth_manager.cc is absent from the sources;
modelled from the spec §4.4 and the unit tests in
src/src/privet/auth_manager_unittest.cc). -/

/-- `AuthScope` with its wire codes (spec §6: 0=none, 1=viewer, 2=user,
3=manager, 4=owner). -/
inductive AuthScope where
  | none | viewer | user | manager | owner
  deriving DecidableEq, Repr

def scopeCode : AuthScope → Nat
  | .none => 0
  | .viewer => 1
  | .user => 2
  | .manager => 3
  | .owner => 4

/-- `UserInfo{scope, user_id}`. -/
structure UserInfo where
  scope : AuthScope
  user_id : Nat
  deriving DecidableEq, Repr

/-- ASCII decimal digits of a natural number (most significant first). -/
def natDigits (n : Nat) : List Nat :=
  if h : n < 10 then [48 + n]
  else natDigits (n / 10) ++ [48 + n % 10]
decreasing_by
  exact Nat.div_lt_self (by omega) (by omega)

/-- Parse a non-empty all-digit byte string as a decimal number. -/
def parseDecimal (l : List Nat) : Option Nat :=
  if l = [] then none
  else if l.all (fun b => 48 ≤ b ∧ b ≤ 57) then
    some (l.foldl (fun acc b => 10 * acc + (b - 48)) 0)
  else none

/-- Split a byte string on a separator byte (`:` in access tokens). -/
def splitOnByte (sep : Nat) : List Nat → List (List Nat)
  | [] => [[]]
  | x :: xs =>
      let r := splitOnByte sep xs
      if x = sep then [] :: r
      else
        match r with
        | h :: t => (x :: h) :: t
        | [] => [[x]]

/-- Modelled from the spec: AuthManager state.  `mac` abstracts
HMAC-SHA256 truncated to 32 bytes (secret, message ↦ digest); `now` is the
pluggable clock's current time in unix seconds. -/
structure AuthManager where
  secret : List Nat
  mac : List Nat → List Nat → List Nat
  now : Nat

/-- Modelled from the spec: access-token payload
`"scope:user_id:unix_seconds"` in ASCII decimal (58 is the colon). -/
def accessTokenPayload (u : UserInfo) (ts : Nat) : List Nat :=
  natDigits (scopeCode u.scope) ++ 58 :: natDigits u.user_id ++
    58 :: natDigits ts

/-- Modelled from the spec: `AuthManager::CreateAccessToken` returns
`MAC(secret, payload) || payload`. -/
def createAccessToken (A : AuthManager) (u : UserInfo) : List Nat :=
  A.mac A.secret (accessTokenPayload u A.now) ++ accessTokenPayload u A.now

/-- The wire scope codes back to scopes. -/
def codeToScope (n : Nat) : Option AuthScope :=
  if n = 0 then some .none
  else if n = 1 then some .viewer
  else if n = 2 then some .user
  else if n = 3 then some .manager
  else if n = 4 then some .owner
  else Option.none

/-- Modelled from the spec: `AuthManager::ParseAccessToken` verifies the
32-byte MAC prefix against the payload, parses
`scope:user_id:unix_seconds`, and returns `UserInfo{none, 0}` (with no
timestamp written) on any failure. -/
def parseAccessToken (A : AuthManager) (token : List Nat) :
    UserInfo × Option Nat :=
  let macPart := token.take 32
  let payload := token.drop 32
  if A.mac A.secret payload ≠ macPart then (⟨.none, 0⟩, Option.none)
  else
    match splitOnByte 58 payload with
    | [s, u, t] =>
        match parseDecimal s, parseDecimal u, parseDecimal t with
        | some sc, some uid, some ts =>
            match codeToScope sc with
            | some scope => (⟨scope, uid⟩, some ts)
            | Option.none => (⟨.none, 0⟩, Option.none)
        | _, _, _ => (⟨.none, 0⟩, Option.none)
    | _ => (⟨.none, 0⟩, Option.none)

/-- `RootClientTokenOwner` (weave/settings.h). -/
inductive RootClientTokenOwner where
  | none | client | cloud
  deriving DecidableEq, Repr

/-- Outcome of `AuthManager::ClaimRootClientAuthToken`: a fatal `CHECK`
failure aborting the process, a non-fatal error (empty token returned), or a
token being minted. -/
inductive ClaimOutcome where
  | fatal | failure | success
  deriving DecidableEq, Repr

/-- Modelled from the spec §4.4 and the expectations of
`AuthManagerClaimTest.WithPreviosOwner`: claiming with claimer `none` fails a
`CHECK` (process abort); claiming `client` over an existing owner returns an
error and an empty token; every other combination mints a token. -/
def claimRootClientAuthToken (current claimer : RootClientTokenOwner) :
    ClaimOutcome :=
  if claimer = .none then .fatal
  else if claimer = .client ∧ current ≠ .none then .failure
  else .success

end Weave

namespace Weave

/-! ## Claims -/

set_option maxHeartbeats 4000000
set_option maxRecDepth 8000

instance alSortedDec {α : Type} : (d : List (String × α)) → Decidable (alSorted d)
  | [] => .isTrue trivial
  | [_] => .isTrue trivial
  | (k, v) :: (l, w) :: rest =>
      haveI := alSortedDec ((l, w) :: rest)
      inferInstanceAs (Decidable (_ ∧ _))

theorem alGet_mem {α : Type} :
    ∀ (d : List (String × α)) (k : String) (v : α),
      alGet d k = some v → (k, v) ∈ d
  | [], k, v, h => by simp [alGet] at h
  | (l, w) :: rest, k, v, h => by
      simp only [alGet] at h
      by_cases hk : k = l
      · rw [if_pos hk] at h
        cases h
        simp [hk]
      · rw [if_neg hk] at h
        exact List.mem_cons_of_mem _ (alGet_mem rest k v h)

theorem alSorted_tail {α : Type} (x : String × α) (d : List (String × α)) :
    alSorted (x :: d) → alSorted d := by
  obtain ⟨k, v⟩ := x
  cases d with
  | nil => intro; trivial
  | cons y rest =>
      obtain ⟨l, w⟩ := y
      intro h
      exact h.2

theorem alSorted_lt_of_mem {α : Type} :
    ∀ (x : String × α) (d : List (String × α)),
      alSorted (x :: d) → ∀ p ∈ d, strLt x.1 p.1 = true
  | x, [], _, p, hp => by simp at hp
  | ⟨k, v⟩, ⟨l, w⟩ :: rest, h, p, hp => by
      rcases List.mem_cons.mp hp with h1 | h1
      · subst h1
        exact h.1
      · have := alSorted_lt_of_mem ⟨l, w⟩ rest h.2 p h1
        exact strLt_trans _ _ _ h.1 this

/-- Does a component value (as stored in the top-level dictionary) declare
the trait? -/
def declaresVal (v : JValue) (trait : String) : Bool :=
  match v with
  | .dict comp => componentSupportsTrait comp trait
  | _ => false

/-- Does the top-level component dictionary hold a component of the given
name whose `traits` list contains the trait? -/
def declaresTrait (components : JDict) (name trait : String) : Bool :=
  match alGet components name with
  | some v => declaresVal v trait
  | none => false

theorem findComponentWithTrait_cons (l : String) (w : JValue) (rest : JDict)
    (t : String) :
    findComponentWithTrait ((l, w) :: rest) t =
      if declaresVal w t then l else findComponentWithTrait rest t := by
  cases w <;> rfl

/-- `FindComponentWithTrait` returns the name of the first entry, in
iteration order, declaring the trait — or the empty string when no entry
does. -/
theorem fcwt_spec (t : String) :
    ∀ components : JDict,
      (findComponentWithTrait components t = "" ∧
        ∀ p ∈ components, declaresVal p.2 t = false) ∨
      (∃ pre n v post, components = pre ++ (n, v) :: post ∧
        findComponentWithTrait components t = n ∧ declaresVal v t = true ∧
        ∀ p ∈ pre, declaresVal p.2 t = false)
  | [] => by
      left
      constructor
      · rfl
      · intro p hp; simp at hp
  | (l, w) :: rest => by
      by_cases hd : declaresVal w t
      · right
        exact ⟨[], l, w, rest, rfl,
          by rw [findComponentWithTrait_cons, if_pos hd], hd,
          by intro p hp; simp at hp⟩
      · have hskip : findComponentWithTrait ((l, w) :: rest) t =
            findComponentWithTrait rest t := by
          rw [findComponentWithTrait_cons, if_neg hd]
        rcases fcwt_spec t rest with ⟨h1, h2⟩ | ⟨pre, n, v, post, he, hf, hdv, hpre⟩
        · left
          refine ⟨by rw [hskip, h1], ?_⟩
          intro p hp
          rcases List.mem_cons.mp hp with h | h
          · subst h
            simpa using hd
          · exact h2 p h
        · right
          refine ⟨(l, w) :: pre, n, v, post, by rw [he]; simp, by rw [hskip, hf], hdv, ?_⟩
          intro p hp
          rcases List.mem_cons.mp hp with h | h
          · subst h
            simpa using hd
          · exact hpre p h

theorem alSorted_suffix {α : Type} :
    ∀ (xs ys : List (String × α)), alSorted (xs ++ ys) → alSorted ys
  | [], ys, h => h
  | x :: xs, ys, h => alSorted_suffix xs ys (alSorted_tail x (xs ++ ys) h)

theorem alGet_of_sorted_mem {α : Type} :
    ∀ (d : List (String × α)) (k : String) (v : α),
      alSorted d → (k, v) ∈ d → alGet d k = some v
  | [], k, v, _, hm => by simp at hm
  | (l, w) :: rest, k, v, hs, hm => by
      rcases List.mem_cons.mp hm with h | h
      · cases h
        simp [alGet]
      · have hlt := alSorted_lt_of_mem (l, w) rest hs (k, v) h
        have hne : k ≠ l := fun he => strLt_ne l k hlt he.symm
        simp only [alGet, if_neg hne]
        exact alGet_of_sorted_mem rest k v (alSorted_tail _ _ hs) h

/-- In a sorted component dictionary with non-empty names,
`FindComponentWithTrait` finds the lexicographically least component name
declaring the trait, and reports the empty string exactly when no component
declares it. -/
theorem findComponentWithTrait_first (t : String) (components : JDict)
    (hs : alSorted components) (hnz : ∀ p ∈ components, p.1 ≠ "") :
    (findComponentWithTrait components t ≠ "" →
      declaresTrait components (findComponentWithTrait components t) t = true ∧
        ∀ n, declaresTrait components n t = true →
          strLe (findComponentWithTrait components t) n = true) ∧
    (findComponentWithTrait components t = "" →
      ∀ n, declaresTrait components n t = false) := by
  rcases fcwt_spec t components with ⟨h1, h2⟩ | ⟨pre, n, v, post, he, hf, hdv, hpre⟩
  · constructor
    · intro hne
      exact absurd h1 hne
    · intro _ m
      cases hg : alGet components m with
      | none => simp [declaresTrait, hg]
      | some vm =>
          have := h2 (m, vm) (alGet_mem _ _ _ hg)
          simp [declaresTrait, hg, this]
  · have hmem : (n, v) ∈ components := by
      rw [he]
      exact List.mem_append_right _ (List.mem_cons_self _ _)
    have hgn : alGet components n = some v := alGet_of_sorted_mem _ _ _ hs hmem
    constructor
    · intro _
      rw [hf]
      constructor
      · simp [declaresTrait, hgn, hdv]
      · intro m hm
        cases hg : alGet components m with
        | none => simp [declaresTrait, hg] at hm
        | some vm =>
            simp only [declaresTrait, hg] at hm
            have hmemm := alGet_mem _ _ _ hg
            rw [he] at hmemm
            rcases List.mem_append.mp hmemm with hpm | hpm
            · exact absurd hm (by simp [hpre (m, vm) hpm])
            · rcases List.mem_cons.mp hpm with hh | hh
              · cases hh
                simp [strLe, strLt_irrefl]
              · have hsuf := alSorted_suffix pre ((n, v) :: post) (he ▸ hs)
                have hlt := alSorted_lt_of_mem (n, v) post hsuf (m, vm) hh
                simp [strLe, strLt_asymm n m hlt]
    · intro hz
      rw [hf] at hz
      exact absurd hz (hnz (n, v) hmem)

/-- Scenario for claim C1: trait `a` with command `x`, components `bbb` then
`aaa` added in that order, both declaring trait `a`. -/
def c1Trait : JValue :=
  .dict [("commands", .dict [("x", .dict [("minimalRole", .str "user")])])]

/-- Trait registry only, no components: the unrouted case. -/
def c1M2 : CM := (loadTraits CM.init [("a", c1Trait)]).1

/-- State after adding component `bbb`. -/
def c1Mb : CM := (addComponent c1M2 "" "bbb" ["a"]).1

/-- State after adding component `bbb`, then component `aaa`. -/
def c1M : CM := (addComponent c1Mb "" "aaa" ["a"]).1

theorem c1M2_eq :
    c1M2 = { CM.init with traits := [("a", c1Trait)], traitChangedCount := 1 } := by
  decide

theorem c1Mb_eq :
    c1Mb = { CM.init with
      traits := [("a", c1Trait)],
      traitChangedCount := 1,
      components := [("bbb", .dict [("traits", .list [.str "a"])])],
      treeChangedCount := 1 } := by
  unfold c1Mb
  rw [c1M2_eq]
  decide

theorem c1M_eq :
    c1M = { CM.init with
      traits := [("a", c1Trait)],
      traitChangedCount := 1,
      components := [("aaa", .dict [("traits", .list [.str "a"])]),
                     ("bbb", .dict [("traits", .list [.str "a"])])],
      treeChangedCount := 2 } := by
  unfold c1M
  rw [c1Mb_eq]
  rfl

/-- C1 counterexample: component `bbb` is added before `aaa` and declares the
command's trait, so the claim (first component in the order they were added)
routes `a.x` to `bbb`; the code routes it to `aaa`, the lexicographically
first name, because `std::map` iterates in key order, not insertion order. -/
theorem c1_counterexample :
    ((parseCommandInstance c1M (.dict [("name", .str "a.x")]) .cloud
          .owner).2.2.map CommandInstance.component) = .ok "aaa" ∧
      ("aaa" : String) ≠ "bbb" := by
  rw [c1M_eq]
  decide

/-- C1 (amended): with `component` unspecified, `ParseCommandInstance` routes
the command to the first *top-level* component in dictionary iteration order
— lexicographic name order, since components live in a `std::map` — whose
declared traits include the command's trait, and fails with
`unrouted_command` when no top-level component declares that trait. -/
theorem c1_routing (M : CM) (cmd : JValue) (origin : Origin) (role : UserRole)
    (cid : String) (inst : CommandInstance) (mr : UserRole)
    (hfj : fromJson cmd origin = (cid, .ok inst))
    (hcomp : inst.component = "")
    (hmr : getCommandMinimalRole M.traits inst.name = .ok mr)
    (hrole : ¬ role < mr)
    (hs : alSorted M.components)
    (hnz : ∀ p ∈ M.components, p.1 ≠ "") :
    ((∀ n, declaresTrait M.components n ((splitAtFirst inst.name '.').1) = false) →
      parseCommandInstance M cmd origin role = (M, cid, .error .unroutedCommand)) ∧
    (findComponentWithTrait M.components ((splitAtFirst inst.name '.').1) ≠ "" →
      declaresTrait M.components
          (findComponentWithTrait M.components ((splitAtFirst inst.name '.').1))
          ((splitAtFirst inst.name '.').1) = true ∧
        ∀ n, declaresTrait M.components n ((splitAtFirst inst.name '.').1) = true →
          strLe (findComponentWithTrait M.components
            ((splitAtFirst inst.name '.').1)) n = true) := by
  have hff := findComponentWithTrait_first ((splitAtFirst inst.name '.').1)
    M.components hs hnz
  constructor
  · intro hall
    have hfe : findComponentWithTrait M.components
        ((splitAtFirst inst.name '.').1) = "" := by
      by_cases hfe : findComponentWithTrait M.components
          ((splitAtFirst inst.name '.').1) = ""
      · exact hfe
      · have := (hff.1 hfe).1
        rw [hall _] at this
        exact absurd this (by simp)
    simp [parseCommandInstance, hfj, hmr, hrole, hcomp, hfe]
  · exact hff.1

/-- C1 witness: with trait `a` loaded but no components, parsing `a.x`
fails with `unrouted_command`. -/
theorem c1_routing_witness :
    parseCommandInstance c1M2 (.dict [("name", .str "a.x")]) .cloud .owner =
      (c1M2, "", .error .unroutedCommand) :=
  (c1_routing c1M2 (.dict [("name", .str "a.x")]) .cloud .owner ""
      ⟨"", "a.x", "", .cloud, .queued, [], [], [], false⟩ .user
      (by decide) (by decide) (by rw [c1M2_eq]; decide) (by decide)
      (by rw [c1M2_eq]; decide) (by rw [c1M2_eq]; decide)).1
    (by intro n; rw [c1M2_eq]; simp [declaresTrait, CM.init, alGet])

theorem splitOnChar_no_sep (c : Char) :
    ∀ l : List Char, c ∉ l → splitOnChar c l = [l]
  | [], _ => rfl
  | x :: xs, h => by
      have hx : x ≠ c := fun he => h (he ▸ List.mem_cons_self x xs)
      have ih := splitOnChar_no_sep c xs (fun hm => h (List.mem_cons_of_mem _ hm))
      simp [splitOnChar, hx, ih]

theorem dictPathGet_nodot (tr : JDict) (k : String) (h : ('.' : Char) ∉ k.data) :
    dictPathGet tr k = alGet tr k := by
  unfold dictPathGet
  rw [splitOnChar_no_sep _ _ h]
  rfl

theorem dictPathGetDict_nodot (tr : JDict) (k : String)
    (h : ('.' : Char) ∉ k.data) :
    dictPathGetDict tr k =
      (match alGet tr k with
        | some (.dict e) => some e
        | _ => none) := by
  unfold dictPathGetDict
  rw [dictPathGet_nodot tr k h]

theorem dictPathSet_nodot (tr : JDict) (k : String) (v : JValue)
    (h : ('.' : Char) ∉ k.data) : dictPathSet tr k v = alSet tr k v := by
  unfold dictPathSet
  rw [splitOnChar_no_sep _ _ h]
  rfl

/-- Is the trait body under this key, when already registered, identical to
the incoming one?  (The merge condition of `LoadTraits`.) -/
def traitMergeOk (tr : JDict) (p : String × JValue) : Bool :=
  match dictPathGetDict tr p.1 with
  | some ex => decide (JValue.dict ex = p.2)
  | Option.none => true

theorem loadTraitsLoop_iff :
    ∀ (d : List (String × JValue)) (tr : JDict) (m : Bool),
      (∀ p ∈ d, ∃ e, p.2 = JValue.dict e) →
      (∀ p ∈ d, ('.' : Char) ∉ p.1.data) →
      d.Pairwise (fun p q => p.1 ≠ q.1) →
      ((loadTraitsLoop tr m d).2.2 = true ↔ d.all (traitMergeOk tr) = true)
  | [], tr, m, _, _, _ => by simp [loadTraitsLoop]
  | (k, v) :: rest, tr, m, hobj, hdot, hnd => by
      have hkdot : ('.' : Char) ∉ k.data := hdot (k, v) (List.mem_cons_self _ _)
      obtain ⟨e, he⟩ := hobj (k, v) (List.mem_cons_self _ _)
      simp only at he
      subst he
      have ihobj : ∀ p ∈ rest, ∃ e, p.2 = JValue.dict e :=
        fun p hp => hobj p (List.mem_cons_of_mem _ hp)
      have ihdot : ∀ p ∈ rest, ('.' : Char) ∉ p.1.data :=
        fun p hp => hdot p (List.mem_cons_of_mem _ hp)
      have hnd' := (List.pairwise_cons.mp hnd).2
      have hkfresh := (List.pairwise_cons.mp hnd).1
      simp only [loadTraitsLoop]
      cases hg : dictPathGetDict tr k with
      | some existing =>
          have ih := loadTraitsLoop_iff rest tr m ihobj ihdot hnd'
          by_cases heq : JValue.dict existing = JValue.dict e
          · simp [heq, ih, traitMergeOk, hg]
          · simp [heq, traitMergeOk, hg]
      | none =>
          have ih := loadTraitsLoop_iff rest (dictPathSet tr k (JValue.dict e))
            true ihobj ihdot hnd'
          have hsame : ∀ p ∈ rest,
              traitMergeOk (dictPathSet tr k (JValue.dict e)) p =
                traitMergeOk tr p := by
            intro p hp
            have hpk : p.1 ≠ k := fun hh => (hkfresh p hp) hh.symm
            have hpd := ihdot p hp
            simp only [traitMergeOk, dictPathGetDict_nodot _ _ hpd,
              dictPathSet_nodot _ _ _ hkdot, alGet_alSet_ne tr k p.1 _ hpk]
          rw [ih]
          simp only [List.all_cons, Bool.and_eq_true]
          constructor
          · intro hall
            refine ⟨by simp [traitMergeOk, hg], ?_⟩
            rw [List.all_eq_true] at hall ⊢
            intro p hp
            rw [← hsame p hp]
            exact hall p hp
          · intro hall
            rw [List.all_eq_true] at hall ⊢
            intro p hp
            rw [hsame p hp]
            exact hall.2 p hp

/-- Scenario for claim C2: trait `b` registered, then a reload carrying a
fresh trait `a` together with a conflicting redefinition of `b`. -/
def c2M0 : CM := (loadTraits CM.init [("b", .dict [("x", .int 2)])]).1

theorem c2M0_eq :
    c2M0 = { CM.init with
      traits := [("b", .dict [("x", .int 2)])], traitChangedCount := 1 } := by
  decide

/-- C2 counterexample: loading `{a: {}, b: {x:1}}` over a registry holding
`b = {x:2}` fails (the body differs), yet the registry is changed: trait `a`,
processed before the conflict, stays merged — a partial merge is visible. -/
theorem c2_counterexample :
    (loadTraits c2M0 [("a", .dict []), ("b", .dict [("x", .int 1)])]).2 = false ∧
      (loadTraits c2M0 [("a", .dict []), ("b", .dict [("x", .int 1)])]).1.traits ≠
        c2M0.traits ∧
      alGet (loadTraits c2M0
          [("a", .dict []), ("b", .dict [("x", .int 1)])]).1.traits "a" =
        some (.dict []) := by
  rw [c2M0_eq]
  decide

/-- C2 (amended): for an input dictionary whose values are objects (with
dot-free, duplicate-free trait names), LoadTraits succeeds if and only if
every trait of the input that is already registered has a body identical to
the registered one; on a conflict the call fails, but traits processed before
the first conflicting one remain merged, so a partial merge of the input is
visible (no rollback). -/
theorem c2_loadTraits (M : CM) (d : JDict)
    (hobj : ∀ p ∈ d, ∃ e, p.2 = JValue.dict e)
    (hdot : ∀ p ∈ d, ('.' : Char) ∉ p.1.data)
    (hnd : d.Pairwise (fun p q => p.1 ≠ q.1)) :
    (loadTraits M d).2 = true ↔ d.all (traitMergeOk M.traits) = true := by
  have h : (loadTraits M d).2 = (loadTraitsLoop M.traits false d).2.2 := rfl
  rw [h]
  exact loadTraitsLoop_iff d M.traits false hobj hdot hnd

/-- C2 witness: reloading trait `b` with the identical body succeeds. -/
theorem c2_loadTraits_witness :
    (loadTraits c2M0 [("b", .dict [("x", .int 2)])]).2 = true :=
  (c2_loadTraits c2M0 [("b", .dict [("x", .int 2)])]
      (by intro p hp; rw [List.mem_singleton] at hp; subst hp; exact ⟨_, rfl⟩)
      (by intro p hp; rw [List.mem_singleton] at hp; subst hp; decide)
      (by simp)).mpr
    (by rw [c2M0_eq]; decide)

/-- Scenario for claims C5/C6: a single component `c` declaring no traits. -/
def c5M : CM := (addComponent CM.init "" "c" []).1

theorem c5M_eq :
    c5M = { CM.init with
      components := [("c", .dict [("traits", .list [])])],
      treeChangedCount := 1 } := by
  decide

/-- C5 counterexample: component `c` declares no traits at all, yet
`SetStateProperty` happily stores `foo.bar` on it and reports success — no
check that `foo` is a trait the component declares (or even a registered
trait) is performed. -/
theorem c5_counterexample :
    (setStateProperty c5M "c" "foo.bar" (.int 5)).2 = none ∧
      (setStateProperty c5M "c" "foo.bar" (.int 5)).1.components =
        [("c", .dict [("state", .dict [("foo", .dict [("bar", .int 5)])]),
                      ("traits", .list [])])] := by
  rw [c5M_eq]
  decide

/-- C5 (amended): `SetStateProperties`/`SetStateProperty` perform no
trait-membership validation: whenever the component path resolves and the
property name has both a package part and a property part, the call succeeds
and bumps the state-change id, regardless of the component's declared traits
or of the trait registry. -/
theorem c5_set_state_no_validation (M : CM) (path name : String) (v : JValue)
    (c : JDict)
    (hfind : findComponentAt M.components path = .ok c)
    (h1 : (splitAtFirst name '.').1 ≠ "")
    (h2 : (splitAtFirst name '.').2 ≠ "") :
    (setStateProperty M path name v).2 = none ∧
      (setStateProperty M path name v).1.lastStateChangeId =
        M.lastStateChangeId + 1 := by
  unfold setStateProperty
  rw [if_neg h1, if_neg h2]
  unfold setStateProperties
  rw [hfind]
  exact ⟨rfl, rfl⟩

/-- C5 witness: the amended theorem applied to the untyped `foo.bar` write. -/
theorem c5_set_state_witness :
    (setStateProperty c5M "c" "foo.bar" (.int 5)).2 = none ∧
      (setStateProperty c5M "c" "foo.bar" (.int 5)).1.lastStateChangeId =
        c5M.lastStateChangeId + 1 :=
  c5_set_state_no_validation c5M "c" "foo.bar" (.int 5)
    [("traits", .list [])] (by rw [c5M_eq]; decide) (by decide) (by decide)

/-- C6 counterexample: `AddComponentArrayItem` accepts a trait that is not in
the trait registry — it performs no trait check at all — succeeding where the
claim requires an error, and fires the tree-changed callback. -/
theorem c6_counterexample :
    (addComponentArrayItem CM.init "" "arr" ["ghostTrait"]).2 = none ∧
      (addComponentArrayItem CM.init "" "arr" ["ghostTrait"]).1.components =
        [("arr", .list [.dict [("traits", .list [.str "ghostTrait"])]])] ∧
      findTraitDefinition CM.init.traits "ghostTrait" = none := by
  decide

/-- C6 (amended): with an empty parent path, `AddComponent` fails with the
tree untouched and no tree-changed callback on a duplicate sibling
(invalid_state) or an unregistered trait (invalid_prop_value), and otherwise
inserts `{traits: [...]}` under the name and fires the callback.  With a
non-empty path both calls fail with the tree untouched when the parent does
not resolve; but once the parent resolves, `FindComponentGraftNode`
materializes the parent's `components` graft dictionary (creating it, or
replacing a non-dictionary value) *before* the duplicate and trait checks,
and this write-back persists, so a failing nested `AddComponent` can still
change the tree.  `AddComponentArrayItem` checks neither traits nor
duplicates: whenever the parent resolves it succeeds and fires the callback,
appending to the existing array under the name, and replacing a missing or
non-array entry by a fresh one-element array. -/
theorem c6_add_component (M : CM) (path name : String)
    (traits : List String) (e : ErrCode) (c : JDict) (items : List JValue) :
    ((alGet M.components name).isSome = true →
      addComponent M "" name traits = (M, some .invalidState)) ∧
    (alGet M.components name = none →
      (∃ t ∈ traits, findTraitDefinition M.traits t = none) →
      addComponent M "" name traits = (M, some .invalidPropValue)) ∧
    (alGet M.components name = none →
      (∀ t ∈ traits, (findTraitDefinition M.traits t).isSome = true) →
      addComponent M "" name traits =
        ({ M with
            components := alSet M.components name
              (.dict [("traits", .list (traits.map JValue.str))]),
            treeChangedCount := M.treeChangedCount + 1 }, none)) ∧
    (findComponentAt M.components path = .error e →
      addComponent M path name traits = (M, some e) ∧
        addComponentArrayItem M path name traits = (M, some e)) ∧
    (path ≠ "" → findComponentAt M.components path = .ok c →
      (alGet (graftEntries c) name).isSome = true →
      addComponent M path name traits =
        ({ M with
            components := writeBackAtParts M.components true (splitTrim path)
              (alSet c "components" (.dict (graftEntries c))) },
          some .invalidState)) ∧
    (path ≠ "" → findComponentAt M.components path = .ok c →
      alGet (graftEntries c) name = none →
      (∃ t ∈ traits, findTraitDefinition M.traits t = none) →
      addComponent M path name traits =
        ({ M with
            components := writeBackAtParts M.components true (splitTrim path)
              (alSet c "components" (.dict (graftEntries c))) },
          some .invalidPropValue)) ∧
    (path ≠ "" → findComponentAt M.components path = .ok c →
      alGet (graftEntries c) name = none →
      (∀ t ∈ traits, (findTraitDefinition M.traits t).isSome = true) →
      (addComponent M path name traits).2 = none ∧
        (addComponent M path name traits).1.treeChangedCount =
          M.treeChangedCount + 1) ∧
    ((addComponentArrayItem M "" name traits).2 = none ∧
      (addComponentArrayItem M "" name traits).1.treeChangedCount =
        M.treeChangedCount + 1) ∧
    ((∀ its : List JValue, alGet M.components name ≠ some (.list its)) →
      (addComponentArrayItem M "" name traits).1.components =
        alSet M.components name
          (.list [.dict [("traits", .list (traits.map JValue.str))]])) ∧
    (alGet M.components name = some (.list items) →
      (addComponentArrayItem M "" name traits).1.components =
        alSet M.components name
          (.list (items ++ [.dict [("traits", .list (traits.map JValue.str))]]))) ∧
    (path ≠ "" → findComponentAt M.components path = .ok c →
      (addComponentArrayItem M path name traits).2 = none ∧
        (addComponentArrayItem M path name traits).1.treeChangedCount =
          M.treeChangedCount + 1) := by
  refine ⟨?_, ?_, ?_, ?_, ?_, ?_, ?_, ?_, ?_, ?_, ?_⟩
  · intro hdup
    simp [addComponent, addToGraft, hdup]
  · intro hdup ⟨t, ht, hmiss⟩
    have hany : traits.any (fun t => (findTraitDefinition M.traits t).isNone) = true := by
      rw [List.any_eq_true]
      exact ⟨t, ht, by simp [hmiss]⟩
    simp [addComponent, addToGraft, hdup, hany]
  · intro hdup hall
    have hany : traits.any (fun t => (findTraitDefinition M.traits t).isNone) = false := by
      rw [List.any_eq_false]
      intro t ht
      simp [Option.isNone_iff_eq_none]
      have := hall t ht
      rw [Option.isSome_iff_exists] at this
      obtain ⟨w, hw⟩ := this
      simp [hw]
    simp [addComponent, addToGraft, hdup, hany]
  · intro hfind
    have hpne : path ≠ "" := by
      intro hp
      subst hp
      rw [show findComponentAt M.components "" = .ok M.components from rfl] at hfind
      exact absurd hfind (by simp)
    constructor
    · simp [addComponent, hpne, hfind]
    · simp [addComponentArrayItem, hpne, hfind]
  · intro hpne hfound hdup
    simp [addComponent, hpne, hfound, addToGraft, hdup]
  · intro hpne hfound hdup ⟨t, ht, hmiss⟩
    have hany : traits.any (fun t => (findTraitDefinition M.traits t).isNone) = true := by
      rw [List.any_eq_true]
      exact ⟨t, ht, by simp [hmiss]⟩
    simp [addComponent, hpne, hfound, addToGraft, hdup, hany]
  · intro hpne hfound hdup hall
    have hany : traits.any (fun t => (findTraitDefinition M.traits t).isNone) = false := by
      rw [List.any_eq_false]
      intro t ht
      simp [Option.isNone_iff_eq_none]
      have := hall t ht
      rw [Option.isSome_iff_exists] at this
      obtain ⟨w, hw⟩ := this
      simp [hw]
    constructor
    · simp [addComponent, hpne, hfound, addToGraft, hdup, hany]
    · simp [addComponent, hpne, hfound, addToGraft, hdup, hany]
  · constructor
    · simp [addComponentArrayItem]
    · simp [addComponentArrayItem]
  · intro hno
    cases hv : alGet M.components name with
    | none => simp [addComponentArrayItem, hv]
    | some v =>
        cases v with
        | list its => exact absurd hv (hno its)
        | str s => simp [addComponentArrayItem, hv]
        | int n => simp [addComponentArrayItem, hv]
        | bool b => simp [addComponentArrayItem, hv]
        | dict d => simp [addComponentArrayItem, hv]
  · intro hv
    simp [addComponentArrayItem, hv]
  · intro hpne hfound
    constructor
    · simp [addComponentArrayItem, hpne, hfound]
    · simp [addComponentArrayItem, hpne, hfound]

/-- C6 witness: on component `c` (which has no `components` child) a nested
`AddComponent` with the unregistered trait `ghost` fails with
`invalid_prop_value`, yet the tree changes: an empty `components` dictionary
has been materialized inside `c` by the graft-node lookup that ran before the
trait check. -/
theorem c6_add_component_witness :
    addComponent c5M "c" "x" ["ghost"] =
      ({ c5M with
          components :=
            [("c", .dict [("components", .dict []), ("traits", .list [])])] },
        some .invalidPropValue) ∧
      (addComponent c5M "c" "x" ["ghost"]).1.components ≠ c5M.components := by
  have h := (c6_add_component c5M "c" "x" ["ghost"] .invalidState
      [("traits", .list [])] []).2.2.2.2.2.1
    (by decide) (by rw [c5M_eq]; decide) (by decide)
    ⟨"ghost", by decide, by rw [c5M_eq]; decide⟩
  rw [c5M_eq] at h
  constructor
  · rw [c5M_eq, h]
    decide
  · rw [c5M_eq, h]
    decide

theorem getLast?_drop_of_lt {α : Type} :
    ∀ (n : Nat) (l : List α), n < l.length → (l.drop n).getLast? = l.getLast?
  | 0, _, _ => rfl
  | n + 1, [], h => by simp at h
  | n + 1, [x], h => by simp at h
  | n + 1, x :: y :: xs, h => by
      have ih := getLast?_drop_of_lt n (y :: xs) (by simpa using h)
      simpa [List.getLast?_cons_cons] using ih

/-- C7: every successful `SetStateProperties` bumps `update_id` by exactly
one, and the caller's property dictionary is appended (with the clock's
timestamp) as the newest entry of the caller's per-component queue;
`GetAndClearRecordedStateChanges` returns the current update id with the
recorded changes sorted by timestamp — a permutation of the queues' contents
tagged with their component paths — and clears every queue. -/
theorem c7_state_journal (M : CM) (path : String) (dict : JDict) (c : JDict)
    (hfind : findComponentAt M.components path = .ok c) :
    (setStateProperties M path dict).2 = none ∧
    (setStateProperties M path dict).1.lastStateChangeId =
      M.lastStateChangeId + 1 ∧
    alGet (setStateProperties M path dict).1.stateChangeQueues path =
      some (notifyPropertiesUpdated
        (match alGet M.stateChangeQueues path with
          | some q => q
          | none => []) M.now dict) ∧
    (∀ (q : List StateChange) (ts : Nat) (d : JDict),
      (notifyPropertiesUpdated q ts d).getLast? = some ⟨ts, d⟩ ∧
        (notifyPropertiesUpdated q ts d).length =
          if q.length + 1 > 100 then 100 else q.length + 1) ∧
    (∀ M' : CM,
      (getAndClearRecordedStateChanges M').1.stateChangeQueues = [] ∧
      (getAndClearRecordedStateChanges M').2.1 = M'.lastStateChangeId ∧
      ((getAndClearRecordedStateChanges M').2.2).Pairwise
        (fun a b => a.timestamp ≤ b.timestamp) ∧
      ((getAndClearRecordedStateChanges M').2.2).Perm
        (M'.stateChangeQueues.flatMap (fun pq =>
          pq.2.map (fun sc =>
            ComponentStateChange.mk sc.timestamp pq.1 sc.changedProperties)))) := by
  refine ⟨?_, ?_, ?_, ?_, ?_⟩
  · unfold setStateProperties
    rw [hfind]
  · unfold setStateProperties
    rw [hfind]
  · unfold setStateProperties
    rw [hfind]
    exact alGet_alSet_self _ _ _
  · intro q ts d
    constructor
    · unfold notifyPropertiesUpdated
      by_cases h : (q ++ [StateChange.mk ts d]).length > 100
      · rw [if_pos h]
        rw [getLast?_drop_of_lt _ _ (by simp at h ⊢; omega)]
        simp
      · rw [if_neg h]
        simp
    · unfold notifyPropertiesUpdated
      by_cases h : (q ++ [StateChange.mk ts d]).length > 100
      · rw [if_pos h]
        have hl : (q ++ [StateChange.mk ts d]).length = q.length + 1 := by simp
        rw [List.length_drop, hl, if_pos (by simp at h; omega)]
        omega
      · rw [if_neg h]
        have hl : (q ++ [StateChange.mk ts d]).length = q.length + 1 := by simp
        rw [hl, if_neg (by simp at h; omega)]
  · intro M'
    refine ⟨rfl, rfl, ?_, ?_⟩
    · have h := @List.sorted_mergeSort ComponentStateChange
        (fun a b => decide (a.timestamp ≤ b.timestamp))
        (fun a b c h1 h2 => by simp at h1 h2 ⊢; omega)
        (fun a b => by simp; omega)
        (M'.stateChangeQueues.flatMap (fun pq =>
          pq.2.map (fun sc =>
            ComponentStateChange.mk sc.timestamp pq.1 sc.changedProperties)))
      simpa [getAndClearRecordedStateChanges] using h
    · exact List.mergeSort_perm _ _

/-- C7 witness: a concrete successful write on the scenario component. -/
theorem c7_state_journal_witness :
    (setStateProperties c5M "c" [("t", .dict [("p", .int 1)])]).2 = none ∧
      (setStateProperties c5M "c" [("t", .dict [("p", .int 1)])]).1.lastStateChangeId =
        c5M.lastStateChangeId + 1 :=
  have h := c7_state_journal c5M "c" [("t", .dict [("p", .int 1)])]
    [("traits", .list [])] (by rw [c5M_eq]; decide)
  ⟨h.1, h.2.1⟩

theorem fromJson_fst (json : JDict) (origin : Origin) :
    (fromJson (.dict json) origin).1 =
      (match alGet json "id" with
        | some (.str s) => s
        | _ => "") := by
  unfold fromJson
  cases hid : alGet json "id" with
  | none => (repeat' split) <;> simp_all
  | some v => cases v <;> ((repeat' split) <;> simp_all)

theorem parse_out_cases (M : CM) (v : JValue) (origin : Origin)
    (role : UserRole) :
    (parseCommandInstance M v origin role).2.1 = (fromJson v origin).1 ∨
    ((fromJson v origin).1 = "" ∧
      (parseCommandInstance M v origin role).2.2.toOption.isSome = true) := by
  unfold parseCommandInstance
  rcases hfj : fromJson v origin with ⟨cid, r⟩
  cases r with
  | error e => left; rfl
  | ok inst =>
      cases hmr : getCommandMinimalRole M.traits inst.name with
      | error e => left; simp [hmr]
      | ok mr =>
          by_cases hrole : role < mr
          · left; simp [hmr, hrole]
          · by_cases hcomp : inst.component = ""
            · by_cases hfw : findComponentWithTrait M.components
                  ((splitAtFirst inst.name '.').1) = ""
              · left; simp [hmr, hrole, hcomp, hfw]
              · cases hfc : findComponentAt M.components
                    (findComponentWithTrait M.components
                      ((splitAtFirst inst.name '.').1)) with
                | error e => left; simp [hmr, hrole, hcomp, hfw, hfc]
                | ok comp =>
                    by_cases hts : componentSupportsTrait comp
                        ((splitAtFirst inst.name '.').1) = true
                    · by_cases hcid : cid = ""
                      · right
                        exact ⟨hcid,
                          by simp [hmr, hrole, hcomp, hfw, hfc, hts, hcid,
                            Except.toOption]⟩
                      · left
                        simp [hmr, hrole, hcomp, hfw, hfc, hts, hcid]
                    · left
                      simp [hmr, hrole, hcomp, hfw, hfc, hts]
            · cases hfc : findComponentAt M.components inst.component with
              | error e => left; simp [hmr, hrole, hcomp, hfc]
              | ok comp =>
                  by_cases hts : componentSupportsTrait comp
                      ((splitAtFirst inst.name '.').1) = true
                  · by_cases hcid : cid = ""
                    · right
                      exact ⟨hcid,
                        by simp [hmr, hrole, hcomp, hfc, hts, hcid,
                          Except.toOption]⟩
                    · left
                      simp [hmr, hrole, hcomp, hfc, hts, hcid]
                  · left
                    simp [hmr, hrole, hcomp, hfc, hts]

/-- C10: when the command JSON carries a string `id`, ParseCommandInstance
writes it to the caller's out parameter on every failure after the id is read
(so the caller can abort the cloud command), and also on success whenever it
is non-empty; when the JSON has no string `id`, the out parameter is left
cleared on failure. -/
theorem c10_id_out (M : CM) (json : JDict) (origin : Origin)
    (role : UserRole) :
    (∀ s e, alGet json "id" = some (.str s) →
      (parseCommandInstance M (.dict json) origin role).2.2 = .error e →
      (parseCommandInstance M (.dict json) origin role).2.1 = s) ∧
    (∀ s, alGet json "id" = some (.str s) → s ≠ "" →
      (parseCommandInstance M (.dict json) origin role).2.1 = s) ∧
    ((match alGet json "id" with
        | some (.str _) => False
        | _ => True) →
      ∀ e, (parseCommandInstance M (.dict json) origin role).2.2 = .error e →
        (parseCommandInstance M (.dict json) origin role).2.1 = "") := by
  have hfst := fromJson_fst json origin
  have hcases := parse_out_cases M (.dict json) origin role
  refine ⟨?_, ?_, ?_⟩
  · intro s e hid herr
    rcases hcases with h | ⟨_, hok⟩
    · rw [h, hfst, hid]
    · rw [herr] at hok
      exact absurd hok (by simp [Except.toOption])
  · intro s hid hs
    rcases hcases with h | ⟨hz, _⟩
    · rw [h, hfst, hid]
    · rw [hfst, hid] at hz
      exact absurd hz hs
  · intro hnid e herr
    rcases hcases with h | ⟨_, hok⟩
    · rw [h, hfst]
      cases hg : alGet json "id" with
      | none => rfl
      | some v =>
          cases v <;> first | rfl | (rw [hg] at hnid; exact absurd hnid (by simp))
    · rw [herr] at hok
      exact absurd hok (by simp [Except.toOption])

/-- C10 witness: a command JSON with id `"42"` and no name fails, and the
out id parameter still reports `"42"`. -/
theorem c10_id_out_witness :
    (parseCommandInstance CM.init (.dict [("id", .str "42")]) .cloud
        .owner).2.1 = "42" :=
  (c10_id_out CM.init [("id", .str "42")] .cloud .owner).1 "42"
    .propertyMissing (by decide) (by decide)

theorem filterComponentState_components (tr : JDict) (role : UserRole)
    (c : JDict) :
    alGet (filterComponentState tr role c) "components" =
      alGet c "components" := by
  unfold filterComponentState
  cases hst : alGet c "state" with
  | none => rfl
  | some v =>
      cases v with
      | dict s =>
          dsimp only
          by_cases hrem : (s.filterMap (fun tp =>
              match tp.2 with
              | .dict tv =>
                  let tv' := tv.filter (fun p => keepProp tr role tp.1 p.1)
                  if tv' = [] ∧ tv ≠ [] then none
                  else some (tp.1, JValue.dict tv')
              | other => some (tp.1, other)) = [] ∧ s ≠ [])
          · rw [if_pos hrem]
            exact alGet_alRemove_ne c "state" "components" (by decide)
          · rw [if_neg hrem]
            exact alGet_alSet_ne c "state" "components" _ (by decide)
      | str s => rfl
      | int n => rfl
      | bool b => rfl
      | list l => rfl

theorem statePropsOk_filter (tr : JDict) (role : UserRole) (c : JDict) :
    statePropsOk tr role (alGet (filterComponentState tr role c) "state") =
      true := by
  unfold filterComponentState
  cases hst : alGet c "state" with
  | none => simp [statePropsOk, hst]
  | some v =>
      cases v with
      | dict s =>
          dsimp only
          by_cases hrem : (s.filterMap (fun tp =>
              match tp.2 with
              | .dict tv =>
                  let tv' := tv.filter (fun p => keepProp tr role tp.1 p.1)
                  if tv' = [] ∧ tv ≠ [] then none
                  else some (tp.1, JValue.dict tv')
              | other => some (tp.1, other)) = [] ∧ s ≠ [])
          · rw [if_pos hrem, alGet_alRemove_self]
            rfl
          · rw [if_neg hrem, alGet_alSet_self]
            simp only [statePropsOk, List.all_eq_true]
            intro tp' hmem
            rw [List.mem_filterMap] at hmem
            obtain ⟨tp, htp, hf⟩ := hmem
            cases hv : tp.2 with
            | dict tv =>
                rw [hv] at hf
                simp only at hf
                by_cases hdrop : (tv.filter
                    (fun p => keepProp tr role tp.1 p.1) = [] ∧ tv ≠ [])
                · rw [if_pos hdrop] at hf
                  exact absurd hf (by simp)
                · rw [if_neg hdrop] at hf
                  injection hf with hf
                  subst hf
                  simp only [List.all_eq_true]
                  intro p hp
                  exact (List.mem_filter.mp hp).2
            | str sv => rw [hv] at hf; injection hf with hf; subst hf; simp
            | int nv => rw [hv] at hf; injection hf with hf; subst hf; simp
            | bool bv => rw [hv] at hf; injection hf with hf; subst hf; simp
            | list lv => rw [hv] at hf; injection hf with hf; subst hf; simp
      | str s => simp [statePropsOk, hst]
      | int n => simp [statePropsOk, hst]
      | bool b => simp [statePropsOk, hst]
      | list l => simp [statePropsOk, hst]

mutual

theorem compOk_ria (tr : JDict) (role : UserRole) (c : JDict) :
    compOk tr role (removeInaccessibleState tr role c) = true := by
  simp only [removeInaccessibleState]
  cases hcomp : alGet c "components" with
  | some v =>
      cases v with
      | dict subs =>
          simp only [compOk]
          rw [alGet_alSet_ne _ _ _ _ (show "state" ≠ "components" by decide),
            statePropsOk_filter, alGet_alSet_self]
          simp only [Bool.true_and]
          exact subsOk_ria tr role subs
      | str s =>
          simp only [compOk]
          rw [statePropsOk_filter, filterComponentState_components, hcomp]
          rfl
      | int n =>
          simp only [compOk]
          rw [statePropsOk_filter, filterComponentState_components, hcomp]
          rfl
      | bool b =>
          simp only [compOk]
          rw [statePropsOk_filter, filterComponentState_components, hcomp]
          rfl
      | list l =>
          simp only [compOk]
          rw [statePropsOk_filter, filterComponentState_components, hcomp]
          rfl
  | none =>
      simp only [compOk]
      rw [statePropsOk_filter, filterComponentState_components, hcomp]
      rfl
termination_by sizeOf c
decreasing_by
  have h1 := sizeOf_alGet c "components" _ hcomp
  simp only [JValue.dict.sizeOf_spec] at h1
  omega

theorem subsOk_ria (tr : JDict) (role : UserRole) :
    ∀ subs : JDict, subsOk tr role (riaSubs tr role subs) = true
  | [] => by simp [riaSubs, subsOk]
  | (n, v) :: rest => by
      simp only [riaSubs, subsOk]
      rw [valOk_ria tr role v, subsOk_ria tr role rest]
      rfl
termination_by subs => sizeOf subs
decreasing_by
  · simp only [List.cons.sizeOf_spec, Prod.mk.sizeOf_spec]; omega
  · simp only [List.cons.sizeOf_spec, Prod.mk.sizeOf_spec]; omega

theorem valOk_ria (tr : JDict) (role : UserRole) :
    ∀ v : JValue, valOk tr role (riaSub tr role v) = true
  | .dict e => by
      simp only [riaSub, valOk]
      exact compOk_ria tr role e
  | .list items => by
      simp only [riaSub, valOk]
      exact itemsOk_ria tr role items
  | .str s => by simp [riaSub, valOk]
  | .int n => by simp [riaSub, valOk]
  | .bool b => by simp [riaSub, valOk]
termination_by v => sizeOf v
decreasing_by
  · simp only [JValue.dict.sizeOf_spec]; omega
  · simp only [JValue.list.sizeOf_spec]; omega

theorem itemsOk_ria (tr : JDict) (role : UserRole) :
    ∀ items : List JValue, itemsOk tr role (riaItems tr role items) = true
  | [] => by simp [riaItems, itemsOk]
  | item :: rest => by
      simp only [riaItems, itemsOk]
      rw [valOk_ria tr role item, itemsOk_ria tr role rest]
      rfl
termination_by items => sizeOf items
decreasing_by
  · simp only [List.cons.sizeOf_spec]; omega
  · simp only [List.cons.sizeOf_spec]; omega

end

/-- Scenario for claim C3: trait `t` registered with an empty body (so no
state definitions), component `c` declaring it, and state `t.p = 5` set. -/
def c3M0 : CM := (loadTraits CM.init [("t", .dict [])]).1

def c3M1 : CM := (addComponent c3M0 "" "c" ["t"]).1

def c3M : CM := (setStateProperties c3M1 "c" [("t", .dict [("p", .int 5)])]).1

theorem c3M0_eq :
    c3M0 = { CM.init with
      traits := [("t", .dict [])], traitChangedCount := 1 } := by
  decide

theorem c3M1_eq :
    c3M1 = { CM.init with
      traits := [("t", .dict [])], traitChangedCount := 1,
      components := [("c", .dict [("traits", .list [.str "t"])])],
      treeChangedCount := 1 } := by
  unfold c3M1
  rw [c3M0_eq]
  decide

theorem c3M_eq :
    c3M = { CM.init with
      traits := [("t", .dict [])], traitChangedCount := 1,
      components := [("c", .dict [("state", .dict [("t", .dict [("p", .int 5)])]),
                                  ("traits", .list [.str "t"])])],
      treeChangedCount := 1,
      lastStateChangeId := 1,
      stateChangeQueues := [("c", [⟨0, [("t", .dict [("p", .int 5)])]⟩])],
      stateChangedCount := 1 } := by
  unfold c3M
  rw [c3M1_eq]
  decide

/-- C3 counterexample: property `t.p` has no registered state definition (its
trait's body is empty), so the claim's default of `user` applies; yet
`GetComponentsForUserRole(viewer)` keeps `t.p` in the returned tree even
though `user > viewer` — properties with no registered definition are never
removed. -/
theorem c3_counterexample :
    getComponentsForUserRole c3M .viewer =
      [("c", .dict [("state", .dict [("t", .dict [("p", .int 5)])]),
                    ("traits", .list [.str "t"])])] ∧
      getStateMinimalRole c3M.traits "t.p" = none := by
  rw [c3M_eq]
  constructor
  · simp [getComponentsForUserRole, removeInaccessibleState, riaSubs, riaSub,
      riaItems, filterComponentState, keepProp, getStateMinimalRole,
      findStateDefinition, splitTrim, splitOnChar, trimChars, dictPathGet,
      dictPathGetParts, alGet, alSet, alRemove, CM.init, isSpaceASCII,
      strLt, strLtChars]
  · decide

/-- C3 (amended): every state property in the tree returned by
`GetComponentsForUserRole(r)` whose state definition is registered in the
trait registry has minimal role (defaulting to `user` when the definition
gives none) at most `r`; properties with no registered state definition are
retained regardless of the role, and state subtrees emptied by the removal
are pruned (the embedded filter removes a trait dictionary, and the `state`
dictionary itself, exactly when the removals empty it). -/
theorem c3_role_filter (M : CM) (role : UserRole) :
    componentsOk M.traits role (getComponentsForUserRole M role) = true := by
  unfold componentsOk getComponentsForUserRole
  rw [List.all_eq_true]
  intro nc' hmem
  rw [List.mem_map] at hmem
  obtain ⟨nc, hnc, hf⟩ := hmem
  cases hv : nc.2 with
  | dict comp =>
      rw [hv] at hf
      simp only at hf
      subst hf
      simp only
      exact compOk_ria M.traits role comp
  | str s => rw [hv] at hf; subst hf; simp
  | int n => rw [hv] at hf; subst hf; simp
  | bool b => rw [hv] at hf; subst hf; simp
  | list l => rw [hv] at hf; subst hf; simp

theorem natDigits_mem : ∀ n : Nat, ∀ b ∈ natDigits n, 48 ≤ b ∧ b ≤ 57 := by
  intro n
  induction n using Nat.strong_induction_on with
  | _ n ih =>
      intro b hb
      rw [natDigits] at hb
      by_cases h : n < 10
      · rw [dif_pos h] at hb
        rw [List.mem_singleton] at hb
        omega
      · rw [dif_neg h] at hb
        rw [List.mem_append] at hb
        rcases hb with hb | hb
        · exact ih (n / 10) (Nat.div_lt_self (by omega) (by omega)) b hb
        · rw [List.mem_singleton] at hb
          have := Nat.mod_lt n (show 0 < 10 by omega)
          omega

theorem natDigits_ne_nil (n : Nat) : natDigits n ≠ [] := by
  rw [natDigits]
  by_cases h : n < 10
  · rw [dif_pos h]; simp
  · rw [dif_neg h]; simp

theorem foldl_natDigits : ∀ n acc : Nat,
    (natDigits n).foldl (fun a b => 10 * a + (b - 48)) acc =
      acc * 10 ^ (natDigits n).length + n := by
  intro n
  induction n using Nat.strong_induction_on with
  | _ n ih =>
      intro acc
      rw [natDigits]
      by_cases h : n < 10
      · rw [dif_pos h]
        simp [List.foldl]
        omega
      · rw [dif_neg h]
        rw [List.foldl_append, ih (n / 10) (Nat.div_lt_self (by omega) (by omega))]
        simp only [List.foldl, List.length_append, List.length_singleton]
        have hmod := Nat.mod_lt n (show 0 < 10 by omega)
        have hdm := Nat.div_add_mod n 10
        rw [pow_succ]
        have : 10 * (acc * 10 ^ (natDigits (n / 10)).length + n / 10) +
            (48 + n % 10 - 48) =
            acc * (10 ^ (natDigits (n / 10)).length * 10) + (10 * (n / 10) + n % 10) := by
          ring_nf
          omega
        rw [this, hdm]

theorem parseDecimal_natDigits (n : Nat) :
    parseDecimal (natDigits n) = some n := by
  unfold parseDecimal
  rw [if_neg (natDigits_ne_nil n)]
  have hall : (natDigits n).all (fun b => decide (48 ≤ b ∧ b ≤ 57)) = true := by
    rw [List.all_eq_true]
    intro b hb
    have := natDigits_mem n b hb
    simp [this]
  rw [if_pos hall, foldl_natDigits]
  simp

theorem natDigits_no_colon (n : Nat) : (58 : Nat) ∉ natDigits n := by
  intro h
  have := natDigits_mem n 58 h
  omega

theorem splitOnByte_no_sep (sep : Nat) :
    ∀ l : List Nat, sep ∉ l → splitOnByte sep l = [l]
  | [], _ => rfl
  | x :: xs, h => by
      have hx : x ≠ sep := fun he => h (he ▸ List.mem_cons_self x xs)
      have ih := splitOnByte_no_sep sep xs
        (fun hm => h (List.mem_cons_of_mem _ hm))
      simp [splitOnByte, hx, ih]

theorem splitOnByte_append (sep : Nat) :
    ∀ (a rest : List Nat), sep ∉ a →
      splitOnByte sep (a ++ sep :: rest) = a :: splitOnByte sep rest
  | [], rest, _ => by simp [splitOnByte]
  | x :: a, rest, h => by
      have hx : x ≠ sep := fun he => h (he ▸ List.mem_cons_self x a)
      have ih := splitOnByte_append sep a rest
        (fun hm => h (List.mem_cons_of_mem _ hm))
      simp [splitOnByte, hx, ih, List.append_eq]

theorem splitOnByte_payload (u : UserInfo) (ts : Nat) :
    splitOnByte 58 (accessTokenPayload u ts) =
      [natDigits (scopeCode u.scope), natDigits u.user_id, natDigits ts] := by
  have h1 : accessTokenPayload u ts =
      natDigits (scopeCode u.scope) ++
        58 :: (natDigits u.user_id ++ 58 :: natDigits ts) := by
    simp [accessTokenPayload, List.cons_append]
  rw [h1, splitOnByte_append 58 _ _ (natDigits_no_colon _),
    splitOnByte_append 58 _ _ (natDigits_no_colon _),
    splitOnByte_no_sep 58 _ (natDigits_no_colon _)]

theorem codeToScope_scopeCode (s : AuthScope) :
    codeToScope (scopeCode s) = some s := by
  cases s <;> rfl

/-- C8: `ParseAccessToken ∘ CreateAccessToken` returns the original user info
together with the mint-time timestamp (within one second of the clock);
any token whose 32-byte MAC prefix does not match the instance's MAC of its
payload — in particular one minted under a different secret whose MAC
differs — parses to `{none, 0}` with no timestamp. -/
theorem c8_access_token (A : AuthManager) (u : UserInfo)
    (hlen : ∀ p, (A.mac A.secret p).length = 32) :
    parseAccessToken A (createAccessToken A u) = (u, some A.now) ∧
    (∀ ts, (parseAccessToken A (createAccessToken A u)).2 = some ts →
      ts ≤ A.now + 1 ∧ A.now ≤ ts + 1) ∧
    (∀ token, A.mac A.secret (token.drop 32) ≠ token.take 32 →
      parseAccessToken A token = (⟨.none, 0⟩, Option.none)) ∧
    (∀ (B : AuthManager) (u' : UserInfo),
      (∀ p, (B.mac B.secret p).length = 32) →
      A.mac A.secret (accessTokenPayload u' B.now) ≠
        B.mac B.secret (accessTokenPayload u' B.now) →
      parseAccessToken A (createAccessToken B u') = (⟨.none, 0⟩, Option.none)) := by
  have hmain : parseAccessToken A (createAccessToken A u) = (u, some A.now) := by
    unfold parseAccessToken createAccessToken
    have htake : (A.mac A.secret (accessTokenPayload u A.now) ++
        accessTokenPayload u A.now).take 32 =
        A.mac A.secret (accessTokenPayload u A.now) := by
      rw [← hlen (accessTokenPayload u A.now)]
      exact List.take_left _ _
    have hdrop : (A.mac A.secret (accessTokenPayload u A.now) ++
        accessTokenPayload u A.now).drop 32 =
        accessTokenPayload u A.now := by
      rw [← hlen (accessTokenPayload u A.now)]
      exact List.drop_left _ _
    rw [htake, hdrop, if_neg (by simp)]
    rw [splitOnByte_payload]
    simp [parseDecimal_natDigits, codeToScope_scopeCode]
  refine ⟨hmain, ?_, ?_, ?_⟩
  · intro ts hts
    rw [hmain] at hts
    simp only at hts
    injection hts with hts
    omega
  · intro token hne
    unfold parseAccessToken
    rw [if_pos hne]
  · intro B u' hlenB hne
    unfold parseAccessToken createAccessToken
    have htake : (B.mac B.secret (accessTokenPayload u' B.now) ++
        accessTokenPayload u' B.now).take 32 =
        B.mac B.secret (accessTokenPayload u' B.now) := by
      rw [← hlenB (accessTokenPayload u' B.now)]
      exact List.take_left _ _
    have hdrop : (B.mac B.secret (accessTokenPayload u' B.now) ++
        accessTokenPayload u' B.now).drop 32 =
        accessTokenPayload u' B.now := by
      rw [← hlenB (accessTokenPayload u' B.now)]
      exact List.drop_left _ _
    rw [htake, hdrop, if_pos hne]

/-- A concrete 32-byte-output MAC for the C8 witness. -/
def w8mac : List Nat → List Nat → List Nat :=
  fun s p => (s ++ p ++ List.replicate 32 0).take 32

theorem w8mac_len (s : List Nat) : ∀ p, (w8mac s p).length = 32 := by
  intro p
  simp [w8mac, List.length_take]
  omega

/-- C8 witness auth manager (secret from the unit test, clock pinned to the
test's epoch). -/
def w8A : AuthManager :=
  { secret := [69, 53, 17, 37, 80, 73, 2, 5, 79, 64, 41, 57, 12, 54, 65, 63,
      72, 74, 93, 81, 20, 95, 89, 3, 94, 92, 27, 21, 49, 90, 36, 6],
    mac := w8mac, now := 1410000000 }

/-- C8 witness: the round trip at `UserInfo{user, 5}` (the unit test's
values). -/
theorem c8_access_token_witness :
    parseAccessToken w8A (createAccessToken w8A ⟨.user, 5⟩) =
      (⟨.user, 5⟩, some w8A.now) :=
  (c8_access_token w8A ⟨.user, 5⟩ (w8mac_len _)).1

/-- C9 counterexample: with owner `client` and claimer `client`, the claim
predicts a fatal precondition failure, but `ClaimRootClientAuthToken` fails
non-fatally (it returns an empty token; the unit test expects plain `false`,
not death, for this combination). -/
theorem c9_counterexample :
    claimRootClientAuthToken .client .client ≠ .fatal ∧
      claimRootClientAuthToken .client .client ≠ .success := by
  decide

/-- C9 (amended): `ClaimRootClientAuthToken` succeeds exactly for the
transitions none→client, none→cloud, client→cloud and cloud→cloud; a claimer
of `none` is a fatal precondition failure; claiming `client` over an existing
owner fails non-fatally with an empty token. -/
theorem c9_claim_transition_table :
    ∀ current claimer : RootClientTokenOwner,
      (claimRootClientAuthToken current claimer = .success ↔
        (current = .none ∧ claimer = .client) ∨
          (current = .none ∧ claimer = .cloud) ∨
          (current = .client ∧ claimer = .cloud) ∨
          (current = .cloud ∧ claimer = .cloud)) ∧
      (claimRootClientAuthToken current claimer = .fatal ↔ claimer = .none) := by
  intro current claimer
  cases current <;> cases claimer <;> decide

/-- C4 counterexample: a command already in the terminal state `done` accepts
a further `Complete` call: the call reports success instead of the
`invalid_state` error the claim requires for every further transition. -/
theorem c4_counterexample :
    (CommandInstance.Complete
        ⟨"1", "base.reboot", "comp1", .cloud, .done, [], [], [], false⟩ []).2
      = true := by
  decide

/-- C4 (amended): from a terminal state (done/cancelled/aborted/expired)
every transition to a *different* state — via SetProgress, Complete,
SetError, Pause, Abort or Cancel — fails with `invalid_state` and leaves the
state unchanged, while a call that re-asserts the current terminal state
succeeds as a no-op; and from any state, `SetStatus` to `queued` from a
different state is never legal. -/
theorem c4_terminal_transitions (c : CommandInstance) (p r : JDict)
    (he : Bool) (t : CmdState)
    (hterm : c.state = .done ∨ c.state = .cancelled ∨ c.state = .aborted ∨
      c.state = .expired) :
    ((c.SetProgress p).1.state = c.state ∧ (c.SetProgress p).2 = false) ∧
    ((c.Complete r).1.state = c.state ∧
      ((c.Complete r).2 = true ↔ c.state = .done)) ∧
    ((c.SetError he).1.state = c.state ∧ (c.SetError he).2 = false) ∧
    (c.Pause.1.state = c.state ∧ c.Pause.2 = false) ∧
    ((c.Abort he).1.state = c.state ∧
      ((c.Abort he).2 = true ↔ c.state = .aborted)) ∧
    (c.Cancel.1.state = c.state ∧ (c.Cancel.2 = true ↔ c.state = .cancelled)) ∧
    (t ≠ c.state → setStatus c.state t = .error .invalidState) ∧
    (∀ s : CmdState, s ≠ .queued → setStatus s .queued = .error .invalidState) := by
  obtain ⟨cid, cname, ccomp, corig, cst, cpar, cprog, cres, cerr⟩ := c
  simp only at hterm ⊢
  have hlast : ∀ s : CmdState, s ≠ .queued →
      setStatus s .queued = .error .invalidState := by
    intro s hs; cases s <;> simp_all [setStatus]
  rcases hterm with hs | hs | hs | hs <;> subst hs <;>
    refine ⟨?_, ?_, ?_, ?_, ?_, ?_, ?_, hlast⟩ <;>
    first
      | (intro ht; cases t <;> simp_all [setStatus])
      | (simp [CommandInstance.SetProgress, CommandInstance.Complete,
          CommandInstance.SetError, CommandInstance.Pause,
          CommandInstance.Abort, CommandInstance.Cancel, setStatus] <;>
          try split <;> simp_all)

/-- C4 witness: instantiation of the amended theorem at a `done` command. -/
theorem c4_terminal_transitions_witness :
    ((CommandInstance.mk "1" "base.reboot" "" .cloud .done [] [] [] false).SetProgress []).1.state
        = (CommandInstance.mk "1" "base.reboot" "" .cloud .done [] [] [] false).state ∧
      ((CommandInstance.mk "1" "base.reboot" "" .cloud .done [] [] [] false).SetProgress []).2 = false :=
  (c4_terminal_transitions
    (CommandInstance.mk "1" "base.reboot" "" .cloud .done [] [] [] false)
    [] [] false .inProgress (Or.inl rfl)).1

end Weave
